import Mathlib

/-!
Verification development for the Scholar-Scraper standalone repository.

The Python source is shallowly embedded: JSON-like dynamic values become the
inductive `JVal`, Python dicts become ordered association lists (insertion
order preserved, as Python 3.7+ dicts guarantee), and the functions of
`gs_library/utilities.py`, `gs_library/ScholarScraper.py` and `scraper.py`
are translated operation by operation.
-/

set_option maxRecDepth 4000

namespace ScholarScraper

/-- JSON-like dynamic value, the shape of the data the Python code passes
around after `json.load` / `_make_serializable`. -/
inductive JVal where
  | null
  | bool (b : Bool)
  | num (n : Int)
  | str (s : String)
  | arr (elems : List JVal)
  | obj (fields : List (String × JVal))
deriving Repr

/-- A Python dict with string keys, in insertion order. -/
abbrev Obj := List (String × JVal)

/-- Python truthiness (`bool(v)`) for the modelled values. -/
def truthy : JVal → Bool
  | JVal.null => false
  | JVal.bool b => b
  | JVal.num n => n != 0
  | JVal.str s => s ≠ ""
  | JVal.arr xs => ¬ xs.isEmpty
  | JVal.obj fs => ¬ fs.isEmpty

/-- `d.get(k)` on a string-keyed insertion-ordered association list: first
entry with the given key (Python dicts have unique keys, so first-match
lookup agrees with dict lookup). -/
def aget {β : Type} (d : List (String × β)) (k : String) : Option β :=
  (d.find? (fun e => e.1 = k)).map (·.2)

/-- `d[k] = v`: replace the value in place when the key is present
(Python keeps the key's original position), otherwise append. -/
def aset {β : Type} (d : List (String × β)) (k : String) (v : β) :
    List (String × β) :=
  if d.any (fun e => e.1 = k) then
    d.map (fun e => if e.1 = k then (k, v) else e)
  else
    d ++ [(k, v)]


/-- `d.copy()` followed by `d.update(src)`: fold `aset` over `src` in order. -/
def dupdate (d : Obj) (src : Obj) : Obj :=
  src.foldl (fun acc e => aset acc e.1 e.2) d

/-- String-valued field access: the id fields (`scholar_id`,
`author_pub_id`, `title`) are strings per the library's data model;
a missing or non-string field reads as `""` (falsy). -/
def getStr (d : Obj) (k : String) : String :=
  match aget d k with
  | some (JVal.str s) => s
  | _ => ""

/-- `p.get('author_pub_id')` read as a string key (empty = falsy/absent). -/
def pidOf (p : Obj) : String := getStr p "author_pub_id"

/-- `a.get('scholar_id')` read as a string key (empty = falsy/absent). -/
def sidOf (a : Obj) : String := getStr a "scholar_id"

/-! ## `_normalize_title_for_dedupe` (utilities.py lines 53-72) -/

/-- Python `\s` (ASCII range): the whitespace class used by `re.sub` and
`str.strip` in `_normalize_title_for_dedupe`. -/
def pyIsSpace (c : Char) : Bool :=
  c = ' ' || c = '\t' || c = '\n' || c = '\r' || c = '\x0b' || c = '\x0c'

/-- Python `\w` (word character) on the Basic Latin range: letters, digits
and underscore. -/
def pyIsWordChar (c : Char) : Bool :=
  c.isAlphanum || c = '_'

/-- Model of `unicodedata.combining(ch) != 0`: the combining diacritical
marks block U+0300–U+036F (the marks produced by NFKD on Latin letters). -/
def isCombining (c : Char) : Bool :=
  0x300 ≤ c.toNat && c.toNat ≤ 0x36F

/-- Model of `unicodedata.normalize('NFKD', ·)` per character, restricted to
the Latin letters exercised by this development: precomposed Latin-1 vowels
decompose into the base letter plus a combining mark; every other character
maps to itself. -/
def nfkdChar (c : Char) : List Char :=
  match c with
  | 'á' => ['a', '́'] | 'à' => ['a', '̀'] | 'ä' => ['a', '̈']
  | 'é' => ['e', '́'] | 'è' => ['e', '̀'] | 'ë' => ['e', '̈']
  | 'í' => ['i', '́'] | 'ì' => ['i', '̀'] | 'ï' => ['i', '̈']
  | 'ó' => ['o', '́'] | 'ò' => ['o', '̀'] | 'ö' => ['o', '̈']
  | 'ú' => ['u', '́'] | 'ù' => ['u', '̀'] | 'ü' => ['u', '̈']
  | 'ñ' => ['n', '̃'] | 'ç' => ['c', '̧']
  | 'Á' => ['A', '́'] | 'É' => ['E', '́'] | 'Í' => ['I', '́']
  | 'Ó' => ['O', '́'] | 'Ú' => ['U', '́'] | 'Ñ' => ['N', '̃']
  | c => [c]

/-- `re.sub(r"[^\w\s]", ' ', t)` per character. -/
def punctToSpace (c : Char) : Char :=
  if pyIsWordChar c || pyIsSpace c then c else ' '

/-- `re.sub(r'\s+', ' ', t)`: collapse each run of whitespace to one space.
The flag records whether the previous character was part of a run. -/
def collapseWsAux : Bool → List Char → List Char
  | _, [] => []
  | prevSpace, c :: rest =>
    if pyIsSpace c then
      if prevSpace then collapseWsAux true rest
      else ' ' :: collapseWsAux true rest
    else c :: collapseWsAux false rest

/-- `str.strip()`: drop leading and trailing whitespace. -/
def pyStrip (l : List Char) : List Char :=
  ((l.dropWhile pyIsSpace).reverse.dropWhile pyIsSpace).reverse

/-- `_normalize_title_for_dedupe` (utilities.py lines 53-72): NFKD, strip
combining marks, punctuation to spaces, collapse whitespace, strip,
lowercase.  The `try`/`except` never fires for string input. -/
def normalize_title_for_dedupe (title : String) : String :=
  if title = "" then ""
  else
    let t1 := (title.toList.flatMap nfkdChar).filter (fun c => ¬ isCombining c)
    let t2 := t1.map punctToSpace
    let t3 := collapseWsAux false t2
    let t4 := pyStrip t3
    String.mk (t4.map Char.toLower)

example : normalize_title_for_dedupe "Deep Learning!" = "deep learning" := by decide
example : normalize_title_for_dedupe "deep   learning" = "deep learning" := by decide
example : normalize_title_for_dedupe "Éducation, permanente" = "education permanente" := by decide
example : normalize_title_for_dedupe "?!" = "" := by decide

/-! ## `merge_and_save_results` (utilities.py lines 75-195)

The file-system side of the function (load of the existing results file,
atomic write) is factored out: the loaded existing dataset and the current
UTC timestamp are parameters, the in-memory merged dataset is the result,
and the write step is modelled separately below (`save_step`).
Publication-list fields are JSON arrays of JSON objects, as produced by
`json.load` on the persisted dataset and by `_make_serializable` on
`SimplifiedAuthor` values. -/

/-- View a JSON value as an object. -/
def objOf : JVal → Option Obj
  | JVal.obj f => some f
  | _ => none

/-- `a.get('publications', []) or []` followed by iteration over the
publication dicts: the elements of the array, as objects. -/
def getPubs (a : Obj) : List Obj :=
  match aget a "publications" with
  | some (JVal.arr xs) => xs.filterMap objOf
  | _ => []

/-- Store a publication list back into the `publications` field. -/
def setPubs (a : Obj) (ps : List Obj) : Obj :=
  aset a "publications" (JVal.arr (ps.map JVal.obj))


/-- `{p.get('author_pub_id'): p for p in old_pubs if p.get('author_pub_id')}`
(utilities.py line 121). -/
def buildPubMap (old_pubs : List Obj) : List (String × Obj) :=
  old_pubs.foldl (fun m p => if pidOf p ≠ "" then aset m (pidOf p) p else m) []

/-- Body of the `for pub in new_pubs` loop (utilities.py lines 122-136):
a publication without a truthy `author_pub_id` is skipped (`continue`);
one whose id is already mapped is merged field-by-field
(`merged = existing.copy(); merged.update(pub)`); otherwise it is inserted. -/
def mergePubInto (m : List (String × Obj)) (pub : Obj) : List (String × Obj) :=
  let pid := pidOf pub
  if pid = "" then m
  else
    match aget m pid with
    | some ex => aset m pid (dupdate ex pub)
    | none => m ++ [(pid, pub)]

/-- Merged publication list for an author that already exists in the map:
`list(pub_map.values())` after the merge loop (utilities.py lines 119-139). -/
def mergedPubs (old_pubs new_pubs : List Obj) : List Obj :=
  (new_pubs.foldl mergePubInto (buildPubMap old_pubs)).map (·.2)

/-- One iteration of the `for scraped in partial_authors` loop
(utilities.py lines 104-143) acting on the author map. -/
def mergeAuthorsStep (am : List (String × Obj)) (scraped : Obj) : List (String × Obj) :=
  if scraped.isEmpty then am
  else
    let sid := sidOf scraped
    if sid = "" then am
    else
      match aget am sid with
      | some old_author =>
          aset am sid (setPubs scraped (mergedPubs (getPubs old_author) (getPubs scraped)))
      | none =>
          am ++ [(sid, setPubs scraped (getPubs scraped))]

/-- `author_map` built from the loaded existing dataset (utilities.py
lines 96-100): every author with a truthy `scholar_id`, keyed by it. -/
def buildAuthorMap (existing : List Obj) : List (String × Obj) :=
  existing.foldl (fun m a => if sidOf a ≠ "" then aset m (sidOf a) a else m) []

/-- Stamp one publication (utilities.py lines 148-150): set `last_scraped`
to the current time when it is missing or falsy. -/
def stampPub (now : String) (p : Obj) : Obj :=
  if truthy ((aget p "last_scraped").getD JVal.null) then p
  else aset p "last_scraped" (JVal.str now)

/-- Stamp the publications of one author in place (utilities.py
lines 146-150); non-object entries of the array are left untouched
because the loop only mutates dict entries. -/
def stampAuthor (now : String) (a : Obj) : Obj :=
  match aget a "publications" with
  | some (JVal.arr xs) =>
      aset a "publications" (JVal.arr (xs.map (fun v => match v with
        | JVal.obj f => JVal.obj (stampPub now f)
        | v => v)))
  | _ => a

/-- Title extraction for the dedupe key (utilities.py line 163):
`p.get('title') or (p.get('bib') and p['bib'].get('title')) or ''`. -/
def extractTitle (p : Obj) : String :=
  if getStr p "title" ≠ "" then getStr p "title"
  else
    match aget p "bib" with
    | some (JVal.obj b) => getStr b "title"
    | _ => ""

/-- The dedupe key of one publication (utilities.py lines 162-169):
normalized title, or `"__id__:" + author_pub_id` when it normalizes empty. -/
def dedupeKey (p : Obj) : String :=
  let normalized := normalize_title_for_dedupe (extractTitle p)
  if normalized = "" then "__id__:" ++ pidOf p else normalized

/-- The `for p in pubs` dedupe loop for one author (utilities.py
lines 157-175): skip non-dict entries, drop a publication whose key was
already seen in this save, otherwise keep it and record the key.  Returns
the kept publications and the grown seen set. -/
def dedupePubsAux (seen : List String) : List JVal → List Obj × List String
  | [] => ([], seen)
  | v :: rest =>
    match v with
    | JVal.obj p =>
        let k := dedupeKey p
        if seen.contains k then dedupePubsAux seen rest
        else
          let r := dedupePubsAux (k :: seen) rest
          (p :: r.1, r.2)
    | _ => dedupePubsAux seen rest

/-- `a.get('publications', []) or []` as the raw JSON array (non-dict
entries are filtered later, by the dedupe loop's `isinstance` check). -/
def pubsArr (a : Obj) : List JVal :=
  match aget a "publications" with
  | some (JVal.arr xs) => xs
  | _ => []

/-- The dataset-wide dedupe pass (utilities.py lines 154-179): one shared
`seen_titles` set threaded through every author in map order; each author's
publication list is replaced by its deduped list. -/
def dedupeAuthors (seen : List String) : List (String × Obj) → List (String × Obj)
  | [] => []
  | (k, a) :: rest =>
      let r := dedupePubsAux seen (pubsArr a)
      (k, aset a "publications" (JVal.arr (r.1.map JVal.obj))) :: dedupeAuthors r.2 rest

/-- In-memory pipeline of `merge_and_save_results` (utilities.py
lines 75-181): index the existing dataset, merge each incoming author,
stamp missing `last_scraped` timestamps with `now`, then deduplicate
publications across all authors by normalized title. -/
def merge_and_save_results (partial_authors : List Obj) (existing : List Obj)
    (now : String) : List Obj :=
  let am0 := buildAuthorMap existing
  let am1 := partial_authors.foldl mergeAuthorsStep am0
  let am2 := am1.map (fun e => (e.1, stampAuthor now e.2))
  let am3 := dedupeAuthors [] am2
  am3.map (·.2)

/-! ## The atomic-write step (utilities.py lines 183-195)

The file-system effects are modelled by their observable outcome on the
destination file.  `open(path, 'w')` truncates before writing, so a dump
that fails midway leaves a partial file; `os.replace` is atomic. -/

/-- Content of the destination file after the save attempt. -/
inductive FileContent where
  | oldContent
  | newContent
  | partialContent
deriving DecidableEq, Repr

/-- Outcome of the best-effort fallback write directly to the destination. -/
inductive DirectWrite where
  /-- open + dump succeed: the destination holds the full new content. -/
  | success
  /-- `open` itself fails: the destination is untouched. -/
  | failOpen
  /-- `open` truncates/overwrites but the dump fails midway. -/
  | failMid
deriving DecidableEq, Repr

/-- The write step of `merge_and_save_results` (utilities.py lines 183-195):
try the temporary file plus `os.replace`; on any failure fall back to a
direct write at the final path, and raise only when that also fails.
Returns the destination content and whether an exception is raised. -/
def save_step (tmpWriteOk renameOk : Bool) (direct : DirectWrite) :
    FileContent × Bool :=
  if tmpWriteOk && renameOk then (FileContent.newContent, false)
  else
    match direct with
    | DirectWrite.success => (FileContent.newContent, false)
    | DirectWrite.failOpen => (FileContent.oldContent, true)
    | DirectWrite.failMid => (FileContent.partialContent, true)

/-! ## `check_author_needs_scraping` (scraper.py lines 69-98)

`datetime` arithmetic is modelled in seconds.  The parameter `parse` stands
for `datetime.fromisoformat(ts.replace('Z', '+00:00'))` returning epoch
seconds; `none` covers both a raised parse error and the naive-datetime
subtraction error, which the source catches and treats as "needs refresh". -/

/-- Seconds in a day: `timedelta(days=n)` compared in seconds. -/
def secondsPerDay : Int := 86400

/-- The test on one `last_scraped` value: a string timestamp is fresh
exactly when it is non-empty, parses, and its age is within the threshold;
every other shape selects the author (falsy values fail the truthiness
test, non-strings raise in `.replace` and the exception is caught). -/
def lastScrapedNeeds (parse : String → Option Int) (now threshold : Int) :
    Option JVal → Bool
  | some (JVal.str s) =>
      if s = "" then true
      else
        match parse s with
        | some t => now - t > threshold
        | none => true
  | _ => true

/-- The per-publication test inside the `for pub in publications` loop
(scraper.py lines 82-96): absent/falsy `last_scraped`, a non-string value,
a parse failure, or an age strictly above the threshold all select the
author. -/
def pubNeedsRefresh (parse : String → Option Int) (now threshold : Int)
    (p : Obj) : Bool :=
  lastScrapedNeeds parse now threshold (aget p "last_scraped")

/-- `check_author_needs_scraping(author, threshold_days)` (scraper.py
lines 69-98): returns the `scholar_id` when the author must be re-scraped,
`None` otherwise. -/
def check_author_needs_scraping (parse : String → Option Int) (now : Int)
    (threshold_days : Int) (author : Obj) : Option String :=
  let scholar_id := sidOf author
  if scholar_id = "" then none
  else
    let pubsVal := (aget author "publications").getD (JVal.arr [])
    if ¬ truthy pubsVal then some scholar_id
    else
      let pubs := getPubs author
      if pubs.any (pubNeedsRefresh parse now (threshold_days * secondsPerDay))
      then some scholar_id
      else none

/-! ## CAPTCHA classification and the crawl loop
(ScholarScraper.py lines 21-36, 65-72, 146-182) -/

/-- `CAPTCHA_KEYWORDS` (ScholarScraper.py line 36). -/
def CAPTCHA_KEYWORDS : List String :=
  ["captcha", "unusual traffic", "not a robot", "verify you", "blocked"]

/-- `MAX_RETRIES` (ScholarScraper.py line 21). -/
def MAX_RETRIES : Nat := 1

/-- `MAX_TIME_PER_AUTHOR` (ScholarScraper.py line 33), in seconds. -/
def MAX_TIME_PER_AUTHOR : Int := 30

/-- ASCII lowercase of a string (`str.lower()` on the message text). -/
def lowerStr (s : String) : String := String.mk (s.toList.map Char.toLower)

/-- ASCII uppercase of a string (`str.upper()`). -/
def upperStr (s : String) : String := String.mk (s.toList.map Char.toUpper)

/-- Substring search at every suffix position. -/
def listHasInfix (needle : List Char) : List Char → Bool
  | [] => needle.isEmpty
  | c :: rest => needle.isPrefixOf (c :: rest) || listHasInfix needle rest

/-- `needle in haystack` on Python strings: substring containment. -/
def strContains (haystack needle : String) : Bool :=
  listHasInfix needle.toList haystack.toList

/-- `check_for_captcha` (ScholarScraper.py lines 65-72): case-insensitive
keyword search over the error text. -/
def check_for_captcha (error_msg : String) : Bool :=
  CAPTCHA_KEYWORDS.any (fun k => strContains (lowerStr error_msg) k)

/-- A raised Python exception as `crawl`/`start_scraping` observe it:
whether it is an instance of the typed `CaptchaDetectedException`, and its
`str(e)` text. -/
structure PyErr where
  typed : Bool
  msg : String
deriving DecidableEq, Repr

/-- One iteration's inputs in `crawl`'s retry loop: the elapsed wall-clock
reading taken at the top of the iteration, and the outcome
`getAuthorData` would produce if attempted. -/
structure Attempt where
  elapsed : Int
  outcome : Except PyErr Obj
deriving Repr

/-- Result of `crawl` (ScholarScraper.py lines 146-182): either a normal
return (`none` when every attempt failed without a block) or a raised
`CAPTCHA_DETECTED` exception message. -/
inductive CrawlResult where
  | ret (data : Option Obj)
  | captcha (msg : String)
deriving Repr

/-- The `for i in range(MAX_RETRIES)` loop of `crawl` over the oracle of
attempts, also counting the attempts consumed.  A timeout reading raises
the distinguished CAPTCHA error; a keyword-matching fetch error raises it
immediately; any other error is retried (backoff and proxy rotation have
no observable effect in this model); falling off the loop returns the
still-`None` data. -/
def crawl_loop (attempts : Nat → Attempt) (maxTime : Int) :
    Nat → Nat → CrawlResult × Nat
  | _, 0 => (CrawlResult.ret none, 0)
  | i, Nat.succ fuel =>
    let a := attempts i
    if a.elapsed > maxTime then
      (CrawlResult.captcha "CAPTCHA_DETECTED: Timeout - likely stuck on CAPTCHA", 0)
    else
      match a.outcome with
      | Except.ok d => (CrawlResult.ret (some d), 1)
      | Except.error e =>
          if check_for_captcha e.msg then
            (CrawlResult.captcha ("CAPTCHA_DETECTED: " ++ e.msg), 1)
          else
            let r := crawl_loop attempts maxTime (i + 1) fuel
            (r.1, r.2 + 1)

/-- `crawl(scholarID)` (ScholarScraper.py lines 146-182): the retry loop
entered with the source's constants; the second component is the number of
attempts consumed. -/
def crawl (attempts : Nat → Attempt) : CrawlResult × Nat :=
  crawl_loop attempts MAX_TIME_PER_AUTHOR 0 MAX_RETRIES

/-! ## `start_scraping`'s sequential loop (ScholarScraper.py lines 385-407) -/

/-- CAPTCHA classification applied to an exception raised by `crawl`
(ScholarScraper.py lines 392-397): the typed exception, or the
`CAPTCHA_DETECTED` marker in the uppercased text. -/
def is_captcha_error (e : PyErr) : Bool :=
  e.typed || strContains (upperStr e.msg) "CAPTCHA_DETECTED"

/-- What one identity's crawl produces, as `start_scraping` observes it:
a value (possibly `None`), or a raised exception. -/
abbrev CrawlOutcome := Except PyErr (Option Obj)

/-- Result of the run: the final `authorsList`, or an abort that recorded a
defensive partial save (the list handed to `merge_and_save_results`) and
the raised `CAPTCHA_DETECTED` message. -/
inductive RunResult where
  | ok (authorsList : List Obj)
  | abort (saved : List Obj) (msg : String)
deriving Repr

/-- The `for scholarId in self.scholarIds` loop (ScholarScraper.py
lines 385-407): append each successful author, skip `None` results and
non-CAPTCHA errors, and on a CAPTCHA-classified error save the accumulated
`authorsList` and raise.  Also returns the identities attempted. -/
def start_scraping_loop (fetch : String → CrawlOutcome) :
    List String → List Obj → RunResult × List String
  | [], acc => (RunResult.ok acc, [])
  | id :: rest, acc =>
    match fetch id with
    | Except.ok (some d) =>
        let r := start_scraping_loop fetch rest (acc ++ [d])
        (r.1, id :: r.2)
    | Except.ok none =>
        let r := start_scraping_loop fetch rest acc
        (r.1, id :: r.2)
    | Except.error e =>
        if is_captcha_error e then
          (RunResult.abort acc
            ("CAPTCHA_DETECTED: CAPTCHA encountered while processing " ++ id),
           [id])
        else
          let r := start_scraping_loop fetch rest acc
          (r.1, id :: r.2)

/-- `start_scraping` over its identity list, beginning with the empty
`authorsList` (ScholarScraper.py lines 218-231, 385-407). -/
def start_scraping (fetch : String → CrawlOutcome) (ids : List String) :
    RunResult × List String :=
  start_scraping_loop fetch ids []

/-! ## Association-list lemmas -/

section AssocLemmas

variable {β : Type}

theorem bool_eq_false {b : Bool} (h : ¬ b = true) : b = false := by
  cases b
  · rfl
  · exact absurd rfl h

theorem aget_nil (k : String) : aget ([] : List (String × β)) k = none := rfl

theorem aget_cons (e : String × β) (d : List (String × β)) (k : String) :
    aget (e :: d) k = if e.1 = k then some e.2 else aget d k := by
  by_cases h : e.1 = k <;>
    simp [aget, List.find?_cons, h]

theorem aget_append (d₁ d₂ : List (String × β)) (k : String) :
    aget (d₁ ++ d₂) k = (aget d₁ k).or (aget d₂ k) := by
  induction d₁ with
  | nil => simp [aget]
  | cons e rest ih =>
    by_cases h : e.1 = k <;>
      simp [aget_cons, h, ih]

theorem aget_eq_none_iff (d : List (String × β)) (k : String) :
    aget d k = none ↔ ∀ e ∈ d, e.1 ≠ k := by
  induction d with
  | nil => simp [aget]
  | cons e rest ih =>
    by_cases h : e.1 = k <;>
      simp [aget_cons, h, ih]

theorem any_key_of_aget_none (d : List (String × β)) (k : String)
    (h : aget d k = none) : d.any (fun e => e.1 = k) = false := by
  rw [aget_eq_none_iff] at h
  simp only [List.any_eq_false, decide_eq_true_eq]
  exact fun e he => h e he

theorem aget_none_of_any_key_false (d : List (String × β)) (k : String)
    (h : d.any (fun e => e.1 = k) = false) : aget d k = none := by
  rw [aget_eq_none_iff]
  intro e he
  simp only [List.any_eq_false, decide_eq_true_eq] at h
  exact h e he

theorem aset_of_aget_none (d : List (String × β)) (k : String) (v : β)
    (h : aget d k = none) : aset d k v = d ++ [(k, v)] := by
  unfold aset
  rw [any_key_of_aget_none d k h]
  simp

theorem aget_replace_self (d : List (String × β)) (k : String) (v : β)
    (h : d.any (fun e => e.1 = k) = true) :
    aget (d.map (fun e => if e.1 = k then (k, v) else e)) k = some v := by
  induction d with
  | nil => simp at h
  | cons e rest ih =>
    by_cases hek : e.1 = k
    · rw [List.map_cons, if_pos hek, aget_cons]
      simp
    · have h' : rest.any (fun e => e.1 = k) = true := by
        simp only [List.any_cons, Bool.or_eq_true, decide_eq_true_eq] at h
        rcases h with h | h
        · exact absurd h hek
        · exact h
      rw [List.map_cons, if_neg hek, aget_cons, if_neg hek]
      exact ih h'

theorem aget_replace_ne (d : List (String × β)) (k k' : String) (v : β)
    (h : k' ≠ k) :
    aget (d.map (fun e => if e.1 = k then (k, v) else e)) k' = aget d k' := by
  induction d with
  | nil => rfl
  | cons e rest ih =>
    by_cases hek : e.1 = k
    · have h1 : ¬ (k = k') := fun hkk => h hkk.symm
      have h2 : ¬ (e.1 = k') := by
        rw [hek]
        exact h1
      rw [List.map_cons, if_pos hek, aget_cons, aget_cons, if_neg h1, if_neg h2, ih]
    · rw [List.map_cons, if_neg hek, aget_cons, aget_cons, ih]

theorem aget_aset_self (d : List (String × β)) (k : String) (v : β) :
    aget (aset d k v) k = some v := by
  unfold aset
  by_cases h : d.any (fun e => e.1 = k) = true
  · rw [if_pos h]
    exact aget_replace_self d k v h
  · rw [if_neg h, aget_append, aget_none_of_any_key_false d k (bool_eq_false h)]
    rw [aget_cons]
    simp

theorem aget_aset_ne (d : List (String × β)) (k k' : String) (v : β)
    (h : k' ≠ k) : aget (aset d k v) k' = aget d k' := by
  unfold aset
  by_cases ha : d.any (fun e => e.1 = k) = true
  · rw [if_pos ha]
    exact aget_replace_ne d k k' v h
  · rw [if_neg ha, aget_append]
    cases hd : aget d k' with
    | some v' => rfl
    | none =>
        rw [aget_cons, if_neg (fun hkk : k = k' => h hkk.symm)]
        rfl

theorem keys_aset_of_mem (d : List (String × β)) (k : String) (v : β)
    (h : d.any (fun e => e.1 = k) = true) :
    (aset d k v).map Prod.fst = d.map Prod.fst := by
  unfold aset
  rw [if_pos h, List.map_map]
  apply List.map_congr_left
  intro e _
  by_cases hek : e.1 = k <;> simp [hek]

theorem keys_aset_of_not_mem (d : List (String × β)) (k : String) (v : β)
    (h : d.any (fun e => e.1 = k) = false) :
    (aset d k v).map Prod.fst = d.map Prod.fst ++ [k] := by
  unfold aset
  rw [if_neg (by rw [h]; exact Bool.false_ne_true)]
  simp

theorem mem_keys_aset (d : List (String × β)) (k k' : String) (v : β)
    (h : k' ∈ d.map Prod.fst) : k' ∈ (aset d k v).map Prod.fst := by
  by_cases ha : d.any (fun e => e.1 = k) = true
  · rwa [keys_aset_of_mem d k v ha]
  · rw [keys_aset_of_not_mem d k v (bool_eq_false ha)]
    exact List.mem_append_left _ h

theorem mem_keys_aset_self (d : List (String × β)) (k : String) (v : β) :
    k ∈ (aset d k v).map Prod.fst := by
  by_cases ha : d.any (fun e => e.1 = k) = true
  · rw [keys_aset_of_mem d k v ha]
    simp only [List.any_eq_true, decide_eq_true_eq] at ha
    obtain ⟨e, he, hek⟩ := ha
    exact hek ▸ List.mem_map_of_mem Prod.fst he
  · rw [keys_aset_of_not_mem d k v (bool_eq_false ha)]
    simp

theorem aget_isSome_of_mem_keys (d : List (String × β)) (k : String)
    (h : k ∈ d.map Prod.fst) : (aget d k).isSome := by
  induction d with
  | nil => simp at h
  | cons e rest ih =>
    by_cases hek : e.1 = k
    · simp [aget_cons, hek]
    · rw [aget_cons, if_neg hek]
      refine ih ?_
      rcases List.mem_map.1 h with ⟨e', he', hk⟩
      rcases List.mem_cons.1 he' with rfl | he'
      · exact absurd hk hek
      · exact List.mem_map.2 ⟨e', he', hk⟩

theorem mem_of_aget_eq_some (d : List (String × β)) (k : String) (v : β)
    (h : aget d k = some v) : (k, v) ∈ d := by
  induction d with
  | nil => simp [aget] at h
  | cons e rest ih =>
    obtain ⟨a, b⟩ := e
    by_cases hek : a = k
    · rw [aget_cons, if_pos hek] at h
      simp only at h
      obtain rfl := Option.some_injective _ h
      subst hek
      exact List.mem_cons_self _ _
    · rw [aget_cons, if_neg hek] at h
      exact List.mem_cons_of_mem _ (ih h)

theorem mem_values_of_mem (m : List (String × β)) (e : String × β)
    (h : e ∈ m) : e.2 ∈ m.map Prod.snd :=
  List.mem_map_of_mem Prod.snd h

end AssocLemmas

/-! ## `dict.update` lemmas -/

theorem dupdate_nil (d : Obj) : dupdate d [] = d := rfl

theorem dupdate_cons (d : Obj) (e : String × JVal) (src : Obj) :
    dupdate d (e :: src) = dupdate (aset d e.1 e.2) src := rfl

theorem dget_dupdate_not_mem (d src : Obj) (f : String)
    (h : ∀ e ∈ src, e.1 ≠ f) : aget (dupdate d src) f = aget d f := by
  induction src generalizing d with
  | nil => rfl
  | cons e rest ih =>
    rw [dupdate_cons, ih _ (fun e' he' => h e' (List.mem_cons_of_mem _ he')),
      aget_aset_ne _ _ _ _ (fun hf => h e (List.mem_cons_self _ _) hf.symm)]

theorem dget_dupdate_of_none (d src : Obj) (f : String)
    (h : aget src f = none) : aget (dupdate d src) f = aget d f :=
  dget_dupdate_not_mem d src f ((aget_eq_none_iff src f).1 h)

theorem dget_dupdate_of_some (d src : Obj) (f : String) (v : JVal)
    (hnodup : (src.map Prod.fst).Nodup) (h : aget src f = some v) :
    aget (dupdate d src) f = some v := by
  induction src generalizing d with
  | nil => simp [aget] at h
  | cons e rest ih =>
    obtain ⟨a, b⟩ := e
    rw [List.map_cons, List.nodup_cons] at hnodup
    by_cases hak : a = f
    · subst hak
      rw [aget_cons, if_pos rfl] at h
      simp only at h
      obtain rfl := Option.some_injective _ h
      have hrest : ∀ e ∈ rest, e.1 ≠ a := by
        intro e he hea
        have hm : e.1 ∈ List.map Prod.fst rest := List.mem_map_of_mem Prod.fst he
        rw [hea] at hm
        exact hnodup.1 hm
      rw [dupdate_cons, dget_dupdate_not_mem _ _ _ hrest]
      exact aget_aset_self d a b
    · rw [aget_cons, if_neg hak] at h
      rw [dupdate_cons]
      exact ih _ hnodup.2 h

/-- `getStr d k` is non-empty exactly when the field holds that non-empty
string. -/
theorem dget_of_getStr_ne (d : Obj) (k : String) (h : getStr d k ≠ "") :
    aget d k = some (JVal.str (getStr d k)) := by
  unfold getStr at h ⊢
  cases hd : aget d k with
  | none => rw [hd] at h; exact absurd rfl h
  | some v =>
    cases v with
    | str s => rfl
    | null => rw [hd] at h; exact absurd rfl h
    | bool b => rw [hd] at h; exact absurd rfl h
    | num n => rw [hd] at h; exact absurd rfl h
    | arr xs => rw [hd] at h; exact absurd rfl h
    | obj fs => rw [hd] at h; exact absurd rfl h

/-- Updating with an object that carries `author_pub_id` (uniquely) keeps
that id. -/
theorem pidOf_dupdate (ex pub : Obj) (hnodup : (pub.map Prod.fst).Nodup)
    (h : pidOf pub ≠ "") : pidOf (dupdate ex pub) = pidOf pub := by
  have h1 := dget_of_getStr_ne pub "author_pub_id" h
  have h2 := dget_dupdate_of_some ex pub "author_pub_id" _ hnodup h1
  unfold pidOf getStr
  rw [h2, h1]

/-! ## Publication-map invariants for the merge step -/

/-- Every entry of the publication map stores a publication under its own
`author_pub_id`. -/
def PubMapWF (m : List (String × Obj)) : Prop :=
  ∀ e ∈ m, pidOf e.2 = e.1

theorem PubMapWF_nil : PubMapWF [] := by
  intro e he
  simp at he

theorem PubMapWF_aset (m : List (String × Obj)) (k : String) (v : Obj)
    (hm : PubMapWF m) (hv : pidOf v = k) : PubMapWF (aset m k v) := by
  unfold aset
  split
  · intro e he
    rcases List.mem_map.1 he with ⟨e', he', rfl⟩
    by_cases hek : e'.1 = k
    · simp only [if_pos hek]
      exact hv
    · simp only [if_neg hek]
      exact hm e' he'
  · intro e he
    rcases List.mem_append.1 he with he | he
    · exact hm e he
    · rcases List.mem_singleton.1 he with rfl
      exact hv

theorem PubMapWF_append_single (m : List (String × Obj)) (k : String) (v : Obj)
    (hm : PubMapWF m) (hv : pidOf v = k) : PubMapWF (m ++ [(k, v)]) := by
  intro e he
  rcases List.mem_append.1 he with he | he
  · exact hm e he
  · rcases List.mem_singleton.1 he with rfl
    exact hv

theorem PubMapWF_buildPubMap (old_pubs : List Obj) :
    PubMapWF (buildPubMap old_pubs) := by
  unfold buildPubMap
  suffices h : ∀ acc, PubMapWF acc →
      PubMapWF (old_pubs.foldl
        (fun m p => if pidOf p ≠ "" then aset m (pidOf p) p else m) acc) by
    exact h [] PubMapWF_nil
  induction old_pubs with
  | nil => exact fun acc h => h
  | cons p rest ih =>
    intro acc hacc
    rw [List.foldl_cons]
    refine ih _ ?_
    by_cases hp : pidOf p = ""
    · simp only [hp]
      simpa using hacc
    · simp only [if_pos hp]
      exact PubMapWF_aset acc (pidOf p) p hacc rfl

theorem PubMapWF_mergePubInto (m : List (String × Obj)) (pub : Obj)
    (hm : PubMapWF m) (hnodup : (pub.map Prod.fst).Nodup) :
    PubMapWF (mergePubInto m pub) := by
  unfold mergePubInto
  by_cases hp : pidOf pub = ""
  · simp only [hp]
    simpa using hm
  · simp only [if_neg hp]
    cases hfind : aget m (pidOf pub) with
    | some ex =>
        exact PubMapWF_aset m (pidOf pub) (dupdate ex pub) hm
          (pidOf_dupdate ex pub hnodup hp)
    | none => exact PubMapWF_append_single m (pidOf pub) pub hm rfl

theorem mem_keys_mergePubInto (m : List (String × Obj)) (pub : Obj)
    (k : String) (h : k ∈ m.map Prod.fst) :
    k ∈ (mergePubInto m pub).map Prod.fst := by
  unfold mergePubInto
  by_cases hp : pidOf pub = ""
  · simpa only [hp] using h
  · simp only [if_neg hp]
    cases aget m (pidOf pub) with
    | some ex => exact mem_keys_aset m (pidOf pub) k (dupdate ex pub) h
    | none =>
        simp only [List.map_append]
        exact List.mem_append_left _ h

theorem mem_keys_buildPubMap (old_pubs : List Obj) (p : Obj)
    (hp : p ∈ old_pubs) (hpid : pidOf p ≠ "") :
    pidOf p ∈ (buildPubMap old_pubs).map Prod.fst := by
  unfold buildPubMap
  suffices h : ∀ acc, (pidOf p ∈ acc.map Prod.fst ∨ p ∈ old_pubs) →
      pidOf p ∈ (old_pubs.foldl
        (fun m q => if pidOf q ≠ "" then aset m (pidOf q) q else m) acc).map
          Prod.fst by
    exact h [] (Or.inr hp)
  clear hp
  induction old_pubs with
  | nil =>
    intro acc hacc
    rcases hacc with h | h
    · exact h
    · simp at h
  | cons q rest ih =>
    intro acc hacc
    rw [List.foldl_cons]
    rcases hacc with h | h
    · refine ih _ (Or.inl ?_)
      by_cases hq : pidOf q = ""
      · simpa only [hq] using h
      · simp only [if_pos hq]
        exact mem_keys_aset acc (pidOf q) (pidOf p) q h
    · rcases List.mem_cons.1 h with rfl | h
      · refine ih _ (Or.inl ?_)
        simp only [if_pos hpid]
        exact mem_keys_aset_self acc (pidOf p) p
      · exact ih _ (Or.inr h)

theorem mem_keys_foldl_mergePubInto (new_pubs : List Obj)
    (m : List (String × Obj)) (k : String) (h : k ∈ m.map Prod.fst) :
    k ∈ (new_pubs.foldl mergePubInto m).map Prod.fst := by
  induction new_pubs generalizing m with
  | nil => exact h
  | cons q rest ih =>
    rw [List.foldl_cons]
    exact ih _ (mem_keys_mergePubInto m q k h)

theorem PubMapWF_foldl_mergePubInto (new_pubs : List Obj)
    (m : List (String × Obj)) (hm : PubMapWF m)
    (hnodup : ∀ q ∈ new_pubs, (q.map Prod.fst).Nodup) :
    PubMapWF (new_pubs.foldl mergePubInto m) := by
  induction new_pubs generalizing m with
  | nil => exact hm
  | cons q rest ih =>
    rw [List.foldl_cons]
    exact ih _ (PubMapWF_mergePubInto m q hm (hnodup q (List.mem_cons_self _ _)))
      (fun q' hq' => hnodup q' (List.mem_cons_of_mem _ hq'))

/-! ## Claims C1, C2, C3 -/

/-- Claim C1, counterexample: `merge_and_save_results` merges a matching
incoming publication with `merged.update(pub)`, so a field that is
*present but empty* on the incoming side does erase the previously
recorded value — the prior `pages:"1-9"` is overwritten by the incoming
`pages:""`, contradicting the claim that a field "missing or empty on the
incoming side never erases a previously recorded value". -/
theorem claim_C1_counterexample :
    mergedPubs
        [[("author_pub_id", JVal.str "x"), ("title", JVal.str "T"),
          ("pages", JVal.str "1-9")]]
        [[("author_pub_id", JVal.str "x"), ("title", JVal.str "T"),
          ("pages", JVal.str "")]]
      = [[("author_pub_id", JVal.str "x"), ("title", JVal.str "T"),
          ("pages", JVal.str "")]]
    ∧ ("" : String) ≠ "1-9" :=
  ⟨rfl, by decide⟩

/-- Claim C1 (amended): for an incoming publication with a non-empty
`author_pub_id` that matches a prior entry of the publication map built by
`merge_and_save_results`, the merged publication is the prior object
overlaid by the incoming object: every field present on the incoming side
takes the incoming value, and a field *absent* on the incoming side keeps
the prior value (a present-but-empty incoming field, however, overwrites). -/
theorem mergePubInto_overlays_prior (m : List (String × Obj)) (pub prior : Obj)
    (hpid : pidOf pub ≠ "") (hfound : aget m (pidOf pub) = some prior)
    (hnodup : (pub.map Prod.fst).Nodup) :
    aget (mergePubInto m pub) (pidOf pub) = some (dupdate prior pub)
    ∧ (∀ f v, aget pub f = some v → aget (dupdate prior pub) f = some v)
    ∧ (∀ f, aget pub f = none → aget (dupdate prior pub) f = aget prior f) := by
  refine ⟨?_, ?_, ?_⟩
  · unfold mergePubInto
    simp only [if_neg hpid, hfound]
    exact aget_aset_self m (pidOf pub) (dupdate prior pub)
  · intro f v hv
    exact dget_dupdate_of_some prior pub f v hnodup hv
  · intro f hf
    exact dget_dupdate_of_none prior pub f hf

/-- Witness for C1's amended theorem at the claim's own example: prior
`{author_pub_id:"x", title:"T", pages:"1-9"}` merged with incoming
`{author_pub_id:"x", title:"T"}` (pages absent) keeps `pages:"1-9"`. -/
theorem mergePubInto_overlays_prior_witness :
    aget (mergePubInto
        [("x", [("author_pub_id", JVal.str "x"), ("title", JVal.str "T"),
                ("pages", JVal.str "1-9")])]
        [("author_pub_id", JVal.str "x"), ("title", JVal.str "T")])
      "x"
    = some (dupdate
        [("author_pub_id", JVal.str "x"), ("title", JVal.str "T"),
         ("pages", JVal.str "1-9")]
        [("author_pub_id", JVal.str "x"), ("title", JVal.str "T")])
    ∧ aget (dupdate
        [("author_pub_id", JVal.str "x"), ("title", JVal.str "T"),
         ("pages", JVal.str "1-9")]
        [("author_pub_id", JVal.str "x"), ("title", JVal.str "T")])
      "pages" = some (JVal.str "1-9") := by
  have h := mergePubInto_overlays_prior
    [("x", [("author_pub_id", JVal.str "x"), ("title", JVal.str "T"),
            ("pages", JVal.str "1-9")])]
    [("author_pub_id", JVal.str "x"), ("title", JVal.str "T")]
    [("author_pub_id", JVal.str "x"), ("title", JVal.str "T"),
     ("pages", JVal.str "1-9")]
    (by decide) (by rfl) (by decide)
  refine ⟨h.1, ?_⟩
  rw [h.2.2 "pages" (by rfl)]
  rfl

/-- Claim C2, counterexample: the merge step's publication map is built
only from prior publications with a truthy `author_pub_id`
(utilities.py line 121), so a previously recorded publication lacking the
id is dropped by the merge itself — here an existing author's only
publication disappears although the incoming record carries no
publications at all, and likewise through the whole
`merge_and_save_results` pipeline. -/
theorem claim_C2_counterexample :
    mergedPubs [[("title", JVal.str "T")]] [] = []
    ∧ merge_and_save_results
        [[("scholar_id", JVal.str "s"), ("publications", JVal.arr [])]]
        [[("scholar_id", JVal.str "s"),
          ("publications", JVal.arr [JVal.obj [("title", JVal.str "T")]])]]
        "NOW"
      = [[("scholar_id", JVal.str "s"), ("publications", JVal.arr [])]] :=
  ⟨rfl, rfl⟩

/-- Claim C2 (amended): the publication-merge step of
`merge_and_save_results` never loses a previously recorded publication
that carries a non-empty `author_pub_id` — its id is still represented in
the merged publication list; prior publications with an empty or absent
`author_pub_id` are however dropped by this step. -/
theorem mergedPubs_preserves_identified (old_pubs new_pubs : List Obj)
    (p : Obj) (hp : p ∈ old_pubs) (hpid : pidOf p ≠ "")
    (hnodup : ∀ q ∈ new_pubs, (q.map Prod.fst).Nodup) :
    ∃ q ∈ mergedPubs old_pubs new_pubs, pidOf q = pidOf p := by
  have hkey : pidOf p ∈
      ((new_pubs.foldl mergePubInto (buildPubMap old_pubs)).map Prod.fst) :=
    mem_keys_foldl_mergePubInto new_pubs (buildPubMap old_pubs) (pidOf p)
      (mem_keys_buildPubMap old_pubs p hp hpid)
  have hWF : PubMapWF (new_pubs.foldl mergePubInto (buildPubMap old_pubs)) :=
    PubMapWF_foldl_mergePubInto new_pubs (buildPubMap old_pubs)
      (PubMapWF_buildPubMap old_pubs) hnodup
  rcases List.mem_map.1 hkey with ⟨e, he, hk⟩
  refine ⟨e.2, List.mem_map_of_mem Prod.snd he, ?_⟩
  rw [hWF e he, hk]

/-- Witness for C2's amended theorem: an identified prior publication
survives a merge with a sparser incoming duplicate. -/
theorem mergedPubs_preserves_identified_witness :
    ∃ q ∈ mergedPubs
        [[("author_pub_id", JVal.str "x"), ("pages", JVal.str "1-9")]]
        [[("author_pub_id", JVal.str "x")]],
      pidOf q = pidOf [("author_pub_id", JVal.str "x"),
                       ("pages", JVal.str "1-9")] :=
  mergedPubs_preserves_identified
    [[("author_pub_id", JVal.str "x"), ("pages", JVal.str "1-9")]]
    [[("author_pub_id", JVal.str "x")]]
    [("author_pub_id", JVal.str "x"), ("pages", JVal.str "1-9")]
    (List.mem_singleton.2 rfl) (by decide)
    (by intro q hq; rcases List.mem_singleton.1 hq with rfl; decide)

/-- Claim C3, counterexample: in the existing-author branch of
`merge_and_save_results`, an incoming publication whose `author_pub_id` is
empty or absent is *discarded* by the `continue` at utilities.py
lines 124-125, not inserted as new — the merged publication list stays
empty, and the full pipeline drops the publication as well. -/
theorem claim_C3_counterexample :
    mergedPubs [] [[("title", JVal.str "T")]] = []
    ∧ merge_and_save_results
        [[("scholar_id", JVal.str "s"),
          ("publications", JVal.arr [JVal.obj [("title", JVal.str "T")]])]]
        [[("scholar_id", JVal.str "s"), ("publications", JVal.arr [])]]
        "NOW"
      = [[("scholar_id", JVal.str "s"), ("publications", JVal.arr [])]] :=
  ⟨rfl, rfl⟩

/-- Claim C3 (amended): when merging into an existing author record,
`merge_and_save_results` *skips* every incoming publication whose
`author_pub_id` is empty or absent: such a publication makes no change to
the publication map at all — it is neither matched nor inserted (it is
kept only when the author is new, whose list is taken verbatim). -/
theorem mergePubInto_skips_missing_pid (m : List (String × Obj)) (pub : Obj)
    (h : pidOf pub = "") : mergePubInto m pub = m := by
  unfold mergePubInto
  simp [h]

/-- Witness for C3's amended theorem on a concrete id-less publication. -/
theorem mergePubInto_skips_missing_pid_witness :
    mergePubInto [("x", [("author_pub_id", JVal.str "x")])]
        [("title", JVal.str "T")]
      = [("x", [("author_pub_id", JVal.str "x")])] :=
  mergePubInto_skips_missing_pid _ _ (by decide)

/-! ## Claim C7: freshness gating -/

/-- The boolean per-publication test agrees with the claim's enumeration of
refresh conditions: absent or non-string or falsy `last_scraped`, a
timestamp that fails to parse, or an age strictly above the threshold. -/
theorem pubNeedsRefresh_iff (parse : String → Option Int) (now threshold : Int)
    (p : Obj) :
    pubNeedsRefresh parse now threshold p = true
      ↔ (∀ s, s ≠ "" → aget p "last_scraped" ≠ some (JVal.str s))
        ∨ (∃ s, s ≠ "" ∧ aget p "last_scraped" = some (JVal.str s)
            ∧ parse s = none)
        ∨ (∃ s t, aget p "last_scraped" = some (JVal.str s) ∧ parse s = some t
            ∧ now - t > threshold) := by
  unfold pubNeedsRefresh
  cases hls : aget p "last_scraped" with
  | none =>
    exact iff_of_true rfl (Or.inl fun s _ h => Option.noConfusion h)
  | some v =>
    cases v with
    | str s =>
      by_cases hs : s = ""
      · subst hs
        refine iff_of_true (by simp [lastScrapedNeeds]) (Or.inl fun s' hs' h => ?_)
        exact hs' (JVal.str.inj (Option.some_injective _ h)).symm
      · show (if s = "" then true
            else match parse s with
              | some t => decide (now - t > threshold)
              | none => true) = true ↔ _
        rw [if_neg hs]
        cases hp : parse s with
        | none =>
          exact iff_of_true rfl (Or.inr (Or.inl ⟨s, hs, rfl, hp⟩))
        | some t =>
          constructor
          · intro hgt
            exact Or.inr (Or.inr ⟨s, t, rfl, hp, of_decide_eq_true hgt⟩)
          · rintro (h | ⟨s', hs', h, hparse⟩ | ⟨s', t', h, hparse, hgt⟩)
            · exact absurd rfl (h s hs)
            · obtain rfl := JVal.str.inj (Option.some_injective _ h)
              rw [hparse] at hp
              exact Option.noConfusion hp
            · obtain rfl := JVal.str.inj (Option.some_injective _ h)
              rw [hparse] at hp
              obtain rfl := Option.some_injective _ hp
              exact decide_eq_true hgt
    | null =>
      exact iff_of_true rfl
        (Or.inl fun s hs h => JVal.noConfusion (Option.some_injective _ h))
    | bool b =>
      exact iff_of_true rfl
        (Or.inl fun s hs h => JVal.noConfusion (Option.some_injective _ h))
    | num n =>
      exact iff_of_true rfl
        (Or.inl fun s hs h => JVal.noConfusion (Option.some_injective _ h))
    | arr xs =>
      exact iff_of_true rfl
        (Or.inl fun s hs h => JVal.noConfusion (Option.some_injective _ h))
    | obj fs =>
      exact iff_of_true rfl
        (Or.inl fun s hs h => JVal.noConfusion (Option.some_injective _ h))

/-- Claim C7: `check_author_needs_scraping` selects the author (returns its
`scholar_id`) exactly when the publications value is falsy (zero
publications) or some publication needs a refresh — `last_scraped` absent,
unparseable, or strictly older than `thresholdDays` in seconds; the result
is always either that id or `None`. -/
theorem check_author_needs_scraping_spec (parse : String → Option Int)
    (now threshold_days : Int) (author : Obj) (hsid : sidOf author ≠ "") :
    (check_author_needs_scraping parse now threshold_days author
        = some (sidOf author)
      ∨ check_author_needs_scraping parse now threshold_days author = none)
    ∧ (check_author_needs_scraping parse now threshold_days author
        = some (sidOf author)
      ↔ truthy ((aget author "publications").getD (JVal.arr [])) = false
        ∨ ∃ p ∈ getPubs author,
            pubNeedsRefresh parse now (threshold_days * secondsPerDay) p
              = true) := by
  unfold check_author_needs_scraping
  rw [if_neg hsid]
  by_cases htr : truthy ((aget author "publications").getD (JVal.arr [])) = false
  · rw [if_pos (by rw [htr]; exact Bool.false_ne_true)]
    exact ⟨Or.inl rfl, iff_of_true rfl (Or.inl htr)⟩
  · rw [if_neg (fun hc => htr (bool_eq_false hc))]
    by_cases hany : (getPubs author).any
        (pubNeedsRefresh parse now (threshold_days * secondsPerDay)) = true
    · rw [if_pos hany]
      refine ⟨Or.inl rfl, iff_of_true rfl (Or.inr ?_)⟩
      rcases List.any_eq_true.1 hany with ⟨p, hp, hneeds⟩
      exact ⟨p, hp, hneeds⟩
    · rw [if_neg hany]
      refine ⟨Or.inr rfl, iff_of_false (fun h => Option.noConfusion h) ?_⟩
      rintro (h | ⟨p, hp, hneeds⟩)
      · exact htr h
      · exact hany (List.any_eq_true.2 ⟨p, hp, hneeds⟩)

/-- Witness for C7 at the claim's example: every publication scraped
10 days ago — selected with `thresholdDays = 7`, not selected with
`thresholdDays = 14`.  `parseW` sends the stored timestamp to epoch 0 and
`now` is 10 days later. -/
theorem check_author_needs_scraping_witness :
    check_author_needs_scraping
        (fun s => if s = "TS" then some 0 else none) (10 * 86400) 7
        [("scholar_id", JVal.str "s"),
         ("publications", JVal.arr
           [JVal.obj [("last_scraped", JVal.str "TS")]])]
      = some "s"
    ∧ check_author_needs_scraping
        (fun s => if s = "TS" then some 0 else none) (10 * 86400) 14
        [("scholar_id", JVal.str "s"),
         ("publications", JVal.arr
           [JVal.obj [("last_scraped", JVal.str "TS")]])]
      = none := by
  constructor
  · exact (check_author_needs_scraping_spec
      (fun s => if s = "TS" then some 0 else none) (10 * 86400) 7
      [("scholar_id", JVal.str "s"),
       ("publications", JVal.arr
         [JVal.obj [("last_scraped", JVal.str "TS")]])]
      (by decide)).2.mpr
      (Or.inr ⟨[("last_scraped", JVal.str "TS")],
        List.mem_singleton.2 rfl, by decide⟩)
  · rfl

/-! ## Claim C8: the save step is not atomic in every case -/

/-- Claim C8: the happy path of the save writes the temporary file and
atomically renames it, leaving the complete new content with no error; but
when the atomic path fails the code falls back to a direct (truncating)
write at the destination: a midway fallback failure leaves a *partial*
destination file, and a successful fallback swallows the original failure
instead of surfacing it — the failing input for the claim's guarantee. -/
theorem save_step_fallback_not_atomic :
    save_step true true DirectWrite.success = (FileContent.newContent, false)
    ∧ save_step false false DirectWrite.failMid
        = (FileContent.partialContent, true)
    ∧ save_step false false DirectWrite.success
        = (FileContent.newContent, false) := by
  decide

/-! ## Claim C6: block classification inside `crawl` -/

/-- Claim C6, counterexample: a typed challenge-detected exception whose
message contains no block keyword is not classified as a block by `crawl`:
the error is caught generically, the keyword test fails, no distinguished
CAPTCHA error is raised, and `crawl` simply returns `None` — refuting the
claim that the typed exception alone triggers the block classification. -/
theorem claim_C6_counterexample :
    (PyErr.mk true "boom").typed = true
    ∧ check_for_captcha "boom" = false
    ∧ crawl (fun _ => ⟨0, Except.error ⟨true, "boom"⟩⟩)
        = (CrawlResult.ret none, 1) :=
  ⟨rfl, by decide, rfl⟩

/-- Claim C6 (amended): `crawl` classifies a fetch error as a block exactly
when the lowercased error text contains one of the fixed
`CAPTCHA_KEYWORDS` — the typed challenge exception receives no special
treatment inside `crawl`; on a keyword match `crawl` raises the
distinguished `CAPTCHA_DETECTED` error immediately after that single
attempt, with no further retries, and otherwise no block is signalled. -/
theorem crawl_block_classification (attempts : Nat → Attempt) (e : PyErr)
    (h0 : attempts 0 = ⟨0, Except.error e⟩) :
    (check_for_captcha e.msg = true
      ↔ ∃ k ∈ CAPTCHA_KEYWORDS, strContains (lowerStr e.msg) k = true)
    ∧ (check_for_captcha e.msg = true →
        crawl attempts
          = (CrawlResult.captcha ("CAPTCHA_DETECTED: " ++ e.msg), 1))
    ∧ (check_for_captcha e.msg = false →
        crawl attempts = (CrawlResult.ret none, 1)) := by
  refine ⟨?_, ?_, ?_⟩
  · unfold check_for_captcha
    exact List.any_eq_true
  · intro hc
    have h1 : crawl attempts
        = crawl_loop attempts MAX_TIME_PER_AUTHOR 0 (Nat.succ 0) := rfl
    rw [h1]
    simp only [crawl_loop]
    rw [h0]
    simp [hc, MAX_TIME_PER_AUTHOR]
  · intro hc
    have h1 : crawl attempts
        = crawl_loop attempts MAX_TIME_PER_AUTHOR 0 (Nat.succ 0) := rfl
    rw [h1]
    simp only [crawl_loop]
    rw [h0]
    simp [hc, MAX_TIME_PER_AUTHOR]

/-- Witness for C6's amended theorem on a keyword-bearing error text. -/
theorem crawl_block_classification_witness :
    crawl (fun _ => ⟨0, Except.error ⟨false, "Please solve the CAPTCHA"⟩⟩)
      = (CrawlResult.captcha ("CAPTCHA_DETECTED: " ++ "Please solve the CAPTCHA"), 1) :=
  (crawl_block_classification
      (fun _ => ⟨0, Except.error ⟨false, "Please solve the CAPTCHA"⟩⟩)
      ⟨false, "Please solve the CAPTCHA"⟩ rfl).2.1 (by decide)

/-! ## Claim C5: abort durability of the run loop -/

/-- The authors accumulated from a prefix of identities: each crawl that
returned a value appends it, in order. -/
def successesOf (fetch : String → CrawlOutcome) (ids : List String) :
    List Obj :=
  ids.filterMap (fun i => match fetch i with
    | Except.ok (some d) => some d
    | _ => none)

theorem listHasInfix_of_isPrefixOf (needle l : List Char)
    (h : needle.isPrefixOf l = true) : listHasInfix needle l = true := by
  cases l with
  | nil =>
    cases needle with
    | nil => rfl
    | cons n ns =>
      have hfalse : (n :: ns).isPrefixOf ([] : List Char) = false := rfl
      rw [hfalse] at h
      exact Bool.noConfusion h
  | cons c rest =>
    unfold listHasInfix
    rw [h]
    rfl

theorem start_scraping_loop_cons_ok_some (fetch : String → CrawlOutcome)
    (id : String) (rest : List String) (acc : List Obj) (d : Obj)
    (h : fetch id = Except.ok (some d)) :
    start_scraping_loop fetch (id :: rest) acc
      = ((start_scraping_loop fetch rest (acc ++ [d])).1,
         id :: (start_scraping_loop fetch rest (acc ++ [d])).2) := by
  simp only [start_scraping_loop]
  rw [h]

theorem start_scraping_loop_cons_ok_none (fetch : String → CrawlOutcome)
    (id : String) (rest : List String) (acc : List Obj)
    (h : fetch id = Except.ok none) :
    start_scraping_loop fetch (id :: rest) acc
      = ((start_scraping_loop fetch rest acc).1,
         id :: (start_scraping_loop fetch rest acc).2) := by
  simp only [start_scraping_loop]
  rw [h]

theorem start_scraping_loop_cons_error_captcha (fetch : String → CrawlOutcome)
    (id : String) (rest : List String) (acc : List Obj) (e : PyErr)
    (h : fetch id = Except.error e) (he : is_captcha_error e = true) :
    start_scraping_loop fetch (id :: rest) acc
      = (RunResult.abort acc
          ("CAPTCHA_DETECTED: CAPTCHA encountered while processing " ++ id),
         [id]) := by
  simp only [start_scraping_loop]
  rw [h]
  simp [he]

theorem start_scraping_loop_cons_error_soft (fetch : String → CrawlOutcome)
    (id : String) (rest : List String) (acc : List Obj) (e : PyErr)
    (h : fetch id = Except.error e) (he : is_captcha_error e = false) :
    start_scraping_loop fetch (id :: rest) acc
      = ((start_scraping_loop fetch rest acc).1,
         id :: (start_scraping_loop fetch rest acc).2) := by
  simp only [start_scraping_loop]
  rw [h]
  simp [he]

theorem start_scraping_loop_abort (fetch : String → CrawlOutcome)
    (pre : List String) (bad : String) (post : List String) (e : PyErr)
    (acc : List Obj)
    (hpre : ∀ i ∈ pre, ∀ e', fetch i = Except.error e' →
      is_captcha_error e' = false)
    (hbad : fetch bad = Except.error e) (he : is_captcha_error e = true) :
    start_scraping_loop fetch (pre ++ bad :: post) acc
      = (RunResult.abort (acc ++ successesOf fetch pre)
          ("CAPTCHA_DETECTED: CAPTCHA encountered while processing " ++ bad),
         pre ++ [bad]) := by
  induction pre generalizing acc with
  | nil =>
    rw [List.nil_append,
      start_scraping_loop_cons_error_captcha fetch bad post acc e hbad he]
    unfold successesOf
    simp
  | cons i rest ih =>
    have hi := hpre i (List.mem_cons_self _ _)
    have hrest : ∀ i' ∈ rest, ∀ e', fetch i' = Except.error e' →
        is_captcha_error e' = false :=
      fun i' hi' => hpre i' (List.mem_cons_of_mem _ hi')
    rw [List.cons_append]
    cases hf : fetch i with
    | ok od =>
      cases od with
      | some d =>
        rw [start_scraping_loop_cons_ok_some fetch i _ acc d hf,
          ih (acc ++ [d]) hrest]
        unfold successesOf
        simp [List.filterMap_cons, hf]
      | none =>
        rw [start_scraping_loop_cons_ok_none fetch i _ acc hf, ih acc hrest]
        unfold successesOf
        simp [List.filterMap_cons, hf]
    | error e' =>
      rw [start_scraping_loop_cons_error_soft fetch i _ acc e' hf (hi e' hf),
        ih acc hrest]
      unfold successesOf
      simp [List.filterMap_cons, hf]

/-- Claim C5: when a CAPTCHA-classified error aborts the run after some
prefix of identities, `start_scraping` performs the defensive partial save
with exactly the authors accumulated from the successfully completed
prefix, surfaces the distinguished `CAPTCHA_DETECTED` message (which the
top-level handler classifies as a block, not a generic failure), and
attempts no identity beyond the failing one. -/
theorem start_scraping_abort_durability (fetch : String → CrawlOutcome)
    (pre : List String) (bad : String) (post : List String) (e : PyErr)
    (hpre : ∀ i ∈ pre, ∀ e', fetch i = Except.error e' →
      is_captcha_error e' = false)
    (hbad : fetch bad = Except.error e) (he : is_captcha_error e = true) :
    start_scraping fetch (pre ++ bad :: post)
      = (RunResult.abort (successesOf fetch pre)
          ("CAPTCHA_DETECTED: CAPTCHA encountered while processing " ++ bad),
         pre ++ [bad])
    ∧ strContains
        (upperStr
          ("CAPTCHA_DETECTED: CAPTCHA encountered while processing " ++ bad))
        "CAPTCHA_DETECTED" = true := by
  constructor
  · unfold start_scraping
    rw [start_scraping_loop_abort fetch pre bad post e [] hpre hbad he]
    simp
  · unfold strContains upperStr
    apply listHasInfix_of_isPrefixOf
    rw [List.isPrefixOf_iff_prefix]
    have h1 : (String.mk
        ((("CAPTCHA_DETECTED: CAPTCHA encountered while processing "
          ++ bad).toList).map Char.toUpper)).toList
        = ("CAPTCHA_DETECTED: CAPTCHA encountered while processing ".toList.map
            Char.toUpper)
          ++ (bad.toList.map Char.toUpper) := by
      show (("CAPTCHA_DETECTED: CAPTCHA encountered while processing "
          ++ bad).data).map Char.toUpper = _
      rw [String.data_append, List.map_append]
      rfl
    rw [h1]
    refine List.IsPrefix.trans ?_ (List.prefix_append _ _)
    decide

/-- Witness for C5 at the claim's 2-of-5 example: identities `i1`, `i2`
succeed, `i3` raises the CAPTCHA-classified error, `i4`, `i5` are never
reached; the saved partial list holds exactly the two successful authors,
and persisting it into an empty dataset yields exactly those two author
records. -/
theorem start_scraping_abort_durability_witness :
    start_scraping
        (fun id =>
          if id = "i1" then Except.ok (some [("scholar_id", JVal.str "s1")])
          else if id = "i2" then Except.ok (some [("scholar_id", JVal.str "s2")])
          else if id = "i3" then Except.error ⟨false, "CAPTCHA_DETECTED: blocked"⟩
          else Except.ok none)
        ["i1", "i2", "i3", "i4", "i5"]
      = (RunResult.abort
          [[("scholar_id", JVal.str "s1")], [("scholar_id", JVal.str "s2")]]
          ("CAPTCHA_DETECTED: CAPTCHA encountered while processing " ++ "i3"),
         ["i1", "i2", "i3"])
    ∧ merge_and_save_results
        [[("scholar_id", JVal.str "s1")], [("scholar_id", JVal.str "s2")]]
        [] "NOW"
      = [[("scholar_id", JVal.str "s1"), ("publications", JVal.arr [])],
         [("scholar_id", JVal.str "s2"), ("publications", JVal.arr [])]] := by
  constructor
  · have h := start_scraping_abort_durability
      (fun id =>
        if id = "i1" then Except.ok (some [("scholar_id", JVal.str "s1")])
        else if id = "i2" then Except.ok (some [("scholar_id", JVal.str "s2")])
        else if id = "i3" then Except.error ⟨false, "CAPTCHA_DETECTED: blocked"⟩
        else Except.ok none)
      ["i1", "i2"] "i3" ["i4", "i5"] ⟨false, "CAPTCHA_DETECTED: blocked"⟩
      (by
        intro i hi e' hf
        rcases List.mem_cons.1 hi with rfl | hi
        · exact absurd hf (by simp)
        rcases List.mem_cons.1 hi with rfl | hi
        · exact absurd hf (by simp)
        · simp at hi)
      rfl (by decide)
    exact h.1
  · rfl

/-! ## Dedupe-pass lemmas (claims C4 and C10) -/

theorem contains_iff (l : List String) (k : String) :
    l.contains k = true ↔ k ∈ l := by
  simp

theorem dedupePubsAux_cons_obj_seen (seen : List String) (p : Obj)
    (rest : List JVal) (h : seen.contains (dedupeKey p) = true) :
    dedupePubsAux seen (JVal.obj p :: rest) = dedupePubsAux seen rest := by
  simp only [dedupePubsAux, h]
  rfl

theorem dedupePubsAux_cons_obj_fresh (seen : List String) (p : Obj)
    (rest : List JVal) (h : seen.contains (dedupeKey p) = false) :
    dedupePubsAux seen (JVal.obj p :: rest)
      = ((p :: (dedupePubsAux (dedupeKey p :: seen) rest).1),
         (dedupePubsAux (dedupeKey p :: seen) rest).2) := by
  simp only [dedupePubsAux, h]
  rfl

theorem dedupePubsAux_cons_not_obj (seen : List String) (v : JVal)
    (rest : List JVal) (h : objOf v = none) :
    dedupePubsAux seen (v :: rest) = dedupePubsAux seen rest := by
  cases v with
  | obj f => exact absurd h (by simp [objOf])
  | null => rfl
  | bool b => rfl
  | num n => rfl
  | str s2 => rfl
  | arr xs => rfl

/-- The grown seen set is exactly the kept keys (newest first) on top of
the incoming seen set. -/
theorem dedupePubsAux_seen_eq (xs : List JVal) (seen : List String) :
    (dedupePubsAux seen xs).2
      = ((dedupePubsAux seen xs).1.map dedupeKey).reverse ++ seen := by
  induction xs generalizing seen with
  | nil => rfl
  | cons v rest ih =>
    cases v with
    | obj p =>
      by_cases h : seen.contains (dedupeKey p) = true
      · rw [dedupePubsAux_cons_obj_seen seen p rest h]
        exact ih seen
      · rw [dedupePubsAux_cons_obj_fresh seen p rest (bool_eq_false h)]
        simp only [List.map_cons, List.reverse_cons, List.append_assoc,
          List.singleton_append]
        exact ih (dedupeKey p :: seen)
    | null => exact ih seen
    | bool b => exact ih seen
    | num n => exact ih seen
    | str s2 => exact ih seen
    | arr ys => exact ih seen

theorem seen_subset_dedupePubsAux (xs : List JVal) (seen : List String)
    (k : String) (hk : k ∈ seen) : k ∈ (dedupePubsAux seen xs).2 := by
  rw [dedupePubsAux_seen_eq]
  exact List.mem_append_right _ hk

/-- Kept keys are pairwise distinct and none of them was already seen. -/
theorem dedupePubsAux_keys_nodup (xs : List JVal) (seen : List String) :
    ((dedupePubsAux seen xs).1.map dedupeKey).Nodup
    ∧ ∀ k ∈ (dedupePubsAux seen xs).1.map dedupeKey, k ∉ seen := by
  induction xs generalizing seen with
  | nil => exact ⟨List.nodup_nil, by simp [dedupePubsAux]⟩
  | cons v rest ih =>
    cases v with
    | obj p =>
      by_cases h : seen.contains (dedupeKey p) = true
      · rw [dedupePubsAux_cons_obj_seen seen p rest h]
        exact ih seen
      · rw [dedupePubsAux_cons_obj_fresh seen p rest (bool_eq_false h)]
        obtain ⟨hnd, hfresh⟩ := ih (dedupeKey p :: seen)
        refine ⟨List.nodup_cons.2 ⟨?_, hnd⟩, ?_⟩
        · intro hmem
          exact hfresh _ hmem (List.mem_cons_self _ _)
        · intro k hk
          rcases List.mem_cons.1 hk with rfl | hk
          · intro hks
            exact h ((contains_iff seen _).2 hks)
          · intro hks
            exact hfresh k hk (List.mem_cons_of_mem _ hks)
    | null => exact ih seen
    | bool b => exact ih seen
    | num n => exact ih seen
    | str s2 => exact ih seen
    | arr ys => exact ih seen

/-- The kept publications form a subsequence of the object entries, in
their original order. -/
theorem dedupePubsAux_sublist (xs : List JVal) (seen : List String) :
    (dedupePubsAux seen xs).1.Sublist (xs.filterMap objOf) := by
  induction xs generalizing seen with
  | nil => exact List.Sublist.refl _
  | cons v rest ih =>
    cases v with
    | obj p =>
      have hfm : (JVal.obj p :: rest).filterMap objOf
          = p :: rest.filterMap objOf := by
        simp [List.filterMap_cons, objOf]
      by_cases h : seen.contains (dedupeKey p) = true
      · rw [dedupePubsAux_cons_obj_seen seen p rest h, hfm]
        exact List.Sublist.cons _ (ih seen)
      · rw [dedupePubsAux_cons_obj_fresh seen p rest (bool_eq_false h), hfm]
        exact List.Sublist.cons₂ _ (ih (dedupeKey p :: seen))
    | null => exact ih seen
    | bool b => exact ih seen
    | num n => exact ih seen
    | str s2 => exact ih seen
    | arr ys => exact ih seen

/-- Every object's key ends up in the grown seen set. -/
theorem dedupePubsAux_covers (xs : List JVal) (seen : List String) (p : Obj)
    (hp : JVal.obj p ∈ xs) : dedupeKey p ∈ (dedupePubsAux seen xs).2 := by
  induction xs generalizing seen with
  | nil => simp at hp
  | cons v rest ih =>
    rcases List.mem_cons.1 hp with hv | hp2
    · subst hv
      by_cases h : seen.contains (dedupeKey p) = true
      · rw [dedupePubsAux_cons_obj_seen seen p rest h]
        exact seen_subset_dedupePubsAux rest seen _ ((contains_iff seen _).1 h)
      · rw [dedupePubsAux_cons_obj_fresh seen p rest (bool_eq_false h)]
        exact seen_subset_dedupePubsAux rest _ _ (List.mem_cons_self _ _)
    · clear hp
      cases v with
      | obj q =>
        by_cases h : seen.contains (dedupeKey q) = true
        · rw [dedupePubsAux_cons_obj_seen seen q rest h]
          exact ih seen hp2
        · rw [dedupePubsAux_cons_obj_fresh seen q rest (bool_eq_false h)]
          exact ih (dedupeKey q :: seen) hp2
      | null => exact ih seen hp2
      | bool b => exact ih seen hp2
      | num n => exact ih seen hp2
      | str s2 => exact ih seen hp2
      | arr ys => exact ih seen hp2

/-- First-seen wins: every kept publication is an object of the input whose
key was not already seen and such that no earlier object carries the same
key. -/
theorem dedupePubsAux_first_seen (xs : List JVal) (seen : List String)
    (p : Obj) (hp : p ∈ (dedupePubsAux seen xs).1) :
    dedupeKey p ∉ seen
    ∧ ∃ pre post, xs = pre ++ JVal.obj p :: post
        ∧ ∀ q : Obj, JVal.obj q ∈ pre → dedupeKey q ≠ dedupeKey p := by
  induction xs generalizing seen with
  | nil => simp [dedupePubsAux] at hp
  | cons v rest ih =>
    cases v with
    | obj q =>
      by_cases h : seen.contains (dedupeKey q) = true
      · rw [dedupePubsAux_cons_obj_seen seen q rest h] at hp
        obtain ⟨hns, pre, post, heq, hpre⟩ := ih seen hp
        refine ⟨hns, JVal.obj q :: pre, post, by rw [heq]; rfl, ?_⟩
        intro q2 hq2 hkq
        rcases List.mem_cons.1 hq2 with hv | hq2
        · have hq2q : q2 = q := JVal.obj.inj hv
          subst hq2q
          rw [hkq] at h
          exact hns ((contains_iff seen _).1 h)
        · exact hpre q2 hq2 hkq
      · rw [dedupePubsAux_cons_obj_fresh seen q rest (bool_eq_false h)] at hp
        rcases List.mem_cons.1 hp with rfl | hp
        · refine ⟨fun hmem => ?_, [], rest, rfl, by simp⟩
          rw [← contains_iff seen (dedupeKey p)] at hmem
          rw [hmem] at h
          exact h rfl
        · obtain ⟨hns, pre, post, heq, hpre⟩ := ih (dedupeKey q :: seen) hp
          have hnq : dedupeKey p ≠ dedupeKey q :=
            fun hk => hns (hk ▸ List.mem_cons_self _ _)
          refine ⟨fun hk => hns (List.mem_cons_of_mem _ hk),
            JVal.obj q :: pre, post, by rw [heq]; rfl, ?_⟩
          intro q2 hq2 hkq
          rcases List.mem_cons.1 hq2 with hv | hq2
          · have hq2q : q2 = q := JVal.obj.inj hv
            subst hq2q
            exact hnq hkq.symm
          · exact hpre q2 hq2 hkq
    | null =>
      obtain ⟨hns, pre, post, heq, hpre⟩ := ih seen hp
      refine ⟨hns, JVal.null :: pre, post, by rw [heq]; rfl, ?_⟩
      intro q2 hq2 hkq
      rcases List.mem_cons.1 hq2 with hv | hq2
      · exact JVal.noConfusion hv
      · exact hpre q2 hq2 hkq
    | bool b =>
      obtain ⟨hns, pre, post, heq, hpre⟩ := ih seen hp
      refine ⟨hns, JVal.bool b :: pre, post, by rw [heq]; rfl, ?_⟩
      intro q2 hq2 hkq
      rcases List.mem_cons.1 hq2 with hv | hq2
      · exact JVal.noConfusion hv
      · exact hpre q2 hq2 hkq
    | num n =>
      obtain ⟨hns, pre, post, heq, hpre⟩ := ih seen hp
      refine ⟨hns, JVal.num n :: pre, post, by rw [heq]; rfl, ?_⟩
      intro q2 hq2 hkq
      rcases List.mem_cons.1 hq2 with hv | hq2
      · exact JVal.noConfusion hv
      · exact hpre q2 hq2 hkq
    | str s2 =>
      obtain ⟨hns, pre, post, heq, hpre⟩ := ih seen hp
      refine ⟨hns, JVal.str s2 :: pre, post, by rw [heq]; rfl, ?_⟩
      intro q2 hq2 hkq
      rcases List.mem_cons.1 hq2 with hv | hq2
      · exact JVal.noConfusion hv
      · exact hpre q2 hq2 hkq
    | arr ys =>
      obtain ⟨hns, pre, post, heq, hpre⟩ := ih seen hp
      refine ⟨hns, JVal.arr ys :: pre, post, by rw [heq]; rfl, ?_⟩
      intro q2 hq2 hkq
      rcases List.mem_cons.1 hq2 with hv | hq2
      · exact JVal.noConfusion hv
      · exact hpre q2 hq2 hkq

/-! ## Dataset-wide dedupe: one shared seen set across all authors -/

/-- All publications of a dataset, in author order. -/
def allPubs (d : List Obj) : List Obj := (d.map getPubs).flatten

theorem getPubs_eq_filterMap_pubsArr (a : Obj) :
    getPubs a = (pubsArr a).filterMap objOf := by
  unfold getPubs pubsArr
  cases hp : aget a "publications" with
  | none => rfl
  | some v => cases v <;> rfl

theorem getPubs_aset_arr (a : Obj) (ps : List Obj) :
    getPubs (aset a "publications" (JVal.arr (ps.map JVal.obj))) = ps := by
  unfold getPubs
  rw [aget_aset_self]
  show List.filterMap objOf (ps.map JVal.obj) = ps
  rw [List.filterMap_map]
  have hcomp : objOf ∘ JVal.obj = some := rfl
  rw [hcomp, List.filterMap_some]

theorem dedupeAuthors_cons (seen : List String) (k : String) (a : Obj)
    (rest : List (String × Obj)) :
    dedupeAuthors seen ((k, a) :: rest)
      = (k, aset a "publications"
            (JVal.arr ((dedupePubsAux seen (pubsArr a)).1.map JVal.obj)))
        :: dedupeAuthors (dedupePubsAux seen (pubsArr a)).2 rest := rfl

/-- Keys of all surviving publications across the whole deduped dataset are
pairwise distinct, and none of them was in the incoming seen set. -/
theorem dedupeAuthors_global_nodup (am : List (String × Obj))
    (seen : List String) :
    ((allPubs ((dedupeAuthors seen am).map Prod.snd)).map dedupeKey).Nodup
    ∧ ∀ k ∈ (allPubs ((dedupeAuthors seen am).map Prod.snd)).map dedupeKey,
        k ∉ seen := by
  induction am generalizing seen with
  | nil => exact ⟨List.nodup_nil, by simp [dedupeAuthors, allPubs]⟩
  | cons e rest ih =>
    obtain ⟨key, a⟩ := e
    rw [dedupeAuthors_cons]
    have hall : allPubs (((key, aset a "publications"
          (JVal.arr ((dedupePubsAux seen (pubsArr a)).1.map JVal.obj)))
          :: dedupeAuthors (dedupePubsAux seen (pubsArr a)).2 rest).map Prod.snd)
        = (dedupePubsAux seen (pubsArr a)).1
          ++ allPubs ((dedupeAuthors (dedupePubsAux seen (pubsArr a)).2 rest).map
              Prod.snd) := by
      unfold allPubs
      rw [List.map_cons, List.map_cons, List.flatten_cons]
      rw [getPubs_aset_arr]
    rw [hall, List.map_append]
    obtain ⟨hnd1, hfresh1⟩ := dedupePubsAux_keys_nodup (pubsArr a) seen
    obtain ⟨hnd2, hfresh2⟩ := ih (dedupePubsAux seen (pubsArr a)).2
    have hsub1 : ∀ k ∈ ((dedupePubsAux seen (pubsArr a)).1.map dedupeKey),
        k ∈ (dedupePubsAux seen (pubsArr a)).2 := by
      intro k hk
      rw [dedupePubsAux_seen_eq]
      exact List.mem_append_left _ (List.mem_reverse.2 hk)
    constructor
    · rw [List.nodup_append]
      refine ⟨hnd1, hnd2, ?_⟩
      intro k hk1 hk2
      exact hfresh2 k hk2 (hsub1 k hk1)
    · intro k hk
      rcases List.mem_append.1 hk with hk | hk
      · exact hfresh1 k hk
      · intro hks
        exact hfresh2 k hk (seen_subset_dedupePubsAux (pubsArr a) seen k hks)

theorem countP_le_one_of_map_nodup {α : Type} (l : List α) (f : α → String)
    (pred : α → Bool) (c : String)
    (hnodup : (l.map f).Nodup) (himp : ∀ a, pred a = true → f a = c) :
    l.countP pred ≤ 1 := by
  induction l with
  | nil => simp
  | cons a rest ih =>
    rw [List.map_cons, List.nodup_cons] at hnodup
    by_cases hp : pred a = true
    · rw [List.countP_cons_of_pos _ _ hp]
      have hzero : rest.countP pred = 0 := by
        rw [List.countP_eq_zero]
        intro b hb hpb
        refine absurd ?_ hnodup.1
        rw [himp a hp, ← himp b hpb]
        exact List.mem_map_of_mem f hb
      rw [hzero]
    · rw [List.countP_cons_of_neg _ _ hp]
      exact ih hnodup.2

/-! ## Claim C4: the dedupe pass -/

/-- Claim C4: the dedupe pass of `merge_and_save_results` iterates in
existing order and keys each publication by its normalized title with the
`"__id__:" + author_pub_id` fallback; the survivors have pairwise-distinct
keys, form a subsequence of the input objects, every input key is
represented by a survivor, and each survivor is the *first* object of the
input bearing its key; titles differing only in case, punctuation and
spacing ("Deep Learning!" / "deep   learning") collapse to one key and
only the first-seen record survives. -/
theorem dedupe_pass_spec :
    (∀ xs : List JVal,
      ((dedupePubsAux [] xs).1.map dedupeKey).Nodup
      ∧ (dedupePubsAux [] xs).1.Sublist (xs.filterMap objOf)
      ∧ (∀ p : Obj, JVal.obj p ∈ xs →
          ∃ q ∈ (dedupePubsAux [] xs).1, dedupeKey q = dedupeKey p)
      ∧ (∀ p ∈ (dedupePubsAux [] xs).1,
          ∃ pre post, xs = pre ++ JVal.obj p :: post
            ∧ ∀ q : Obj, JVal.obj q ∈ pre → dedupeKey q ≠ dedupeKey p))
    ∧ dedupeKey [("author_pub_id", JVal.str "a"),
        ("title", JVal.str "Deep Learning!")]
      = dedupeKey [("author_pub_id", JVal.str "b"),
        ("title", JVal.str "deep   learning")]
    ∧ (dedupePubsAux []
        [JVal.obj [("author_pub_id", JVal.str "a"),
           ("title", JVal.str "Deep Learning!")],
         JVal.obj [("author_pub_id", JVal.str "b"),
           ("title", JVal.str "deep   learning")]]).1
      = [[("author_pub_id", JVal.str "a"),
          ("title", JVal.str "Deep Learning!")]] := by
  refine ⟨fun xs => ⟨(dedupePubsAux_keys_nodup xs []).1,
    dedupePubsAux_sublist xs [], ?_, ?_⟩, rfl, rfl⟩
  · intro p hp
    have hc := dedupePubsAux_covers xs [] p hp
    rw [dedupePubsAux_seen_eq, List.append_nil] at hc
    rcases List.mem_map.1 (List.mem_reverse.1 hc) with ⟨q, hq, hkq⟩
    exact ⟨q, hq, hkq⟩
  · intro p hp
    obtain ⟨_, pre, post, heq, hpre⟩ := dedupePubsAux_first_seen xs [] p hp
    exact ⟨pre, post, heq, hpre⟩

/-- Witness for C4 on the claim's accent/punctuation example. -/
theorem dedupe_pass_spec_witness :
    ((dedupePubsAux []
        [JVal.obj [("author_pub_id", JVal.str "a"),
           ("title", JVal.str "Deep Learning!")],
         JVal.obj [("author_pub_id", JVal.str "b"),
           ("title", JVal.str "deep   learning")]]).1.map dedupeKey).Nodup :=
  (dedupe_pass_spec.1 _).1

/-! ## Claim C10: the shared fallback key -/

/-- A publication with an empty-normalizing title and an empty or absent
`author_pub_id` gets the bare fallback key. -/
theorem dedupeKey_of_fallback (p : Obj)
    (hn : normalize_title_for_dedupe (extractTitle p) = "")
    (hpid : pidOf p = "") : dedupeKey p = "__id__:" := by
  show (if normalize_title_for_dedupe (extractTitle p) = ""
      then "__id__:" ++ pidOf p
      else normalize_title_for_dedupe (extractTitle p)) = "__id__:"
  rw [hn, hpid, if_pos rfl]
  decide

/-- Claim C10: all title-less, id-less publications share the single
fallback dedupe key `"__id__:"`, the seen set is shared across every
author of the save, so at most one such publication survives in the whole
saved dataset; in the concrete two-author save the second author's
title-less id-less publication is silently dropped. -/
theorem fallback_key_shared_across_authors :
    (∀ p : Obj, normalize_title_for_dedupe (extractTitle p) = "" →
        pidOf p = "" → dedupeKey p = "__id__:")
    ∧ (∀ partial_authors existing : List Obj, ∀ now : String,
        (allPubs (merge_and_save_results partial_authors existing now)).countP
          (fun p => decide (normalize_title_for_dedupe (extractTitle p) = ""
            ∧ pidOf p = "")) ≤ 1)
    ∧ merge_and_save_results
        [[("scholar_id", JVal.str "a"),
          ("publications", JVal.arr [JVal.obj [("num_citations", JVal.num 1)]])],
         [("scholar_id", JVal.str "b"),
          ("publications", JVal.arr [JVal.obj [("num_citations", JVal.num 2)]])]]
        [] "N"
      = [[("scholar_id", JVal.str "a"),
          ("publications", JVal.arr
            [JVal.obj [("num_citations", JVal.num 1),
                       ("last_scraped", JVal.str "N")]])],
         [("scholar_id", JVal.str "b"), ("publications", JVal.arr [])]] := by
  refine ⟨dedupeKey_of_fallback, ?_, rfl⟩
  intro partial_authors existing now
  have h := dedupeAuthors_global_nodup
    ((partial_authors.foldl mergeAuthorsStep (buildAuthorMap existing)).map
      (fun e => (e.1, stampAuthor now e.2))) []
  exact countP_le_one_of_map_nodup _ dedupeKey _ "__id__:" h.1
    (fun p hp => dedupeKey_of_fallback p (of_decide_eq_true hp).1
      (of_decide_eq_true hp).2)

/-- Witness for C10 at the two-author example save. -/
theorem fallback_key_shared_across_authors_witness :
    (allPubs (merge_and_save_results
        [[("scholar_id", JVal.str "a"),
          ("publications", JVal.arr [JVal.obj [("num_citations", JVal.num 1)]])],
         [("scholar_id", JVal.str "b"),
          ("publications", JVal.arr [JVal.obj [("num_citations", JVal.num 2)]])]]
        [] "N")).countP
      (fun p => decide (normalize_title_for_dedupe (extractTitle p) = ""
        ∧ pidOf p = "")) ≤ 1 :=
  fallback_key_shared_across_authors.2.1 _ _ _

/-! ## Further association-list lemmas (toward claim C9) -/

section AssocMore

variable {β : Type}

theorem any_key_of_aget_some (d : List (String × β)) (k : String)
    (v : β) (h : aget d k = some v) : d.any (fun e => e.1 = k) = true := by
  induction d with
  | nil => exact Option.noConfusion h
  | cons e rest ih =>
    by_cases hek : e.1 = k
    · simp [List.any_cons, hek]
    · rw [aget_cons, if_neg hek] at h
      simp [List.any_cons, ih h]

theorem aset_eq (d : List (String × β)) (k : String) (v : β) :
    aset d k v = if d.any (fun e => e.1 = k) = true
      then d.map (fun e => if e.1 = k then (k, v) else e)
      else d ++ [(k, v)] := rfl

theorem aset_aset (d : List (String × β)) (k : String) (v w : β) :
    aset (aset d k v) k w = aset d k w := by
  have h2 : (aset d k v).any (fun e => e.1 = k) = true :=
    any_key_of_aget_some (aset d k v) k v (aget_aset_self d k v)
  by_cases ha : d.any (fun e => e.1 = k) = true
  · have h1 : aset d k v = d.map (fun e => if e.1 = k then (k, v) else e) := by
      rw [aset_eq, if_pos ha]
    rw [aset_eq (aset d k v) k w, if_pos h2, h1, List.map_map,
      aset_eq d k w, if_pos ha]
    apply List.map_congr_left
    intro e _
    by_cases hek : e.1 = k <;> simp [hek]
  · have h1 : aset d k v = d ++ [(k, v)] := by
      rw [aset_eq, if_neg ha]
    rw [aset_eq (aset d k v) k w, if_pos h2, h1, List.map_append,
      aset_eq d k w, if_neg ha]
    have h3 : ∀ e ∈ d, (if e.1 = k then ((k, w) : String × β) else e) = e := by
      intro e he
      have hek : ¬ e.1 = k := by
        intro hek
        exact ha (List.any_eq_true.2 ⟨e, he, by simpa using hek⟩)
      rw [if_neg hek]
    rw [List.map_congr_left h3]
    simp

theorem mem_aset_ne (d : List (String × β)) (k : String) (v : β)
    (e : String × β) (he : e ∈ aset d k v) (hek : e.1 ≠ k) : e ∈ d := by
  unfold aset at he
  split at he
  · rcases List.mem_map.1 he with ⟨e2, he2, heq⟩
    by_cases h2 : e2.1 = k
    · rw [if_pos h2] at heq
      rw [← heq] at hek
      exact absurd rfl hek
    · rw [if_neg h2] at heq
      rw [← heq]
      exact he2
  · rcases List.mem_append.1 he with he | he
    · exact he
    · rcases List.mem_singleton.1 he with rfl
      exact absurd rfl hek

theorem keys_nodup_aset (d : List (String × β)) (k : String) (v : β)
    (h : (d.map Prod.fst).Nodup) : ((aset d k v).map Prod.fst).Nodup := by
  by_cases ha : d.any (fun e => e.1 = k) = true
  · rwa [keys_aset_of_mem d k v ha]
  · rw [keys_aset_of_not_mem d k v (bool_eq_false ha)]
    rw [List.nodup_append]
    refine ⟨h, List.nodup_singleton k, ?_⟩
    intro x hx hxk
    rcases List.mem_singleton.1 hxk with rfl
    rcases List.mem_map.1 hx with ⟨e, he, hek⟩
    exact ha (List.any_eq_true.2 ⟨e, he, by simpa using hek⟩)

theorem aget_append_middle (pre suf : List (String × β)) (k : String) (v : β)
    (hpre : k ∉ pre.map Prod.fst) :
    aget (pre ++ (k, v) :: suf) k = some v := by
  rw [aget_append]
  have h1 : aget pre k = none := by
    rw [aget_eq_none_iff]
    intro e he hek
    exact hpre (hek ▸ List.mem_map_of_mem Prod.fst he)
  rw [h1, aget_cons, if_pos rfl]
  rfl

theorem aset_append_middle (pre suf : List (String × β)) (k : String)
    (v w : β) (hpre : k ∉ pre.map Prod.fst) (hsuf : k ∉ suf.map Prod.fst) :
    aset (pre ++ (k, v) :: suf) k w = pre ++ (k, w) :: suf := by
  have hany : (pre ++ (k, v) :: suf).any (fun e => e.1 = k) = true := by
    refine List.any_eq_true.2 ⟨(k, v), ?_, by simp⟩
    exact List.mem_append_right _ (List.mem_cons_self _ _)
  unfold aset
  rw [if_pos hany, List.map_append, List.map_cons, if_pos rfl]
  have h1 : ∀ e ∈ pre, (if e.1 = k then ((k, w) : String × β) else e) = e := by
    intro e he
    have hek : ¬ e.1 = k := by
      intro hek
      have hm := List.mem_map_of_mem Prod.fst he
      rw [hek] at hm
      exact hpre hm
    rw [if_neg hek]
  have h2 : ∀ e ∈ suf, (if e.1 = k then ((k, w) : String × β) else e) = e := by
    intro e he
    have hek : ¬ e.1 = k := by
      intro hek
      have hm := List.mem_map_of_mem Prod.fst he
      rw [hek] at hm
      exact hsuf hm
    rw [if_neg hek]
  rw [List.map_congr_left h1, List.map_congr_left h2]
  simp

theorem exists_first_decompose (d : List (String × β)) (k : String)
    (h : k ∈ d.map Prod.fst) :
    ∃ pre v suf, d = pre ++ (k, v) :: suf ∧ k ∉ pre.map Prod.fst := by
  induction d with
  | nil => simp at h
  | cons e rest ih =>
    obtain ⟨a, b⟩ := e
    by_cases hek : a = k
    · subst hek
      exact ⟨[], b, rest, rfl, by simp⟩
    · have h2 : k ∈ rest.map Prod.fst := by
        rcases List.mem_map.1 h with ⟨e2, he2, hk⟩
        rcases List.mem_cons.1 he2 with rfl | he2
        · exact absurd hk hek
        · exact List.mem_map.2 ⟨e2, he2, hk⟩
      obtain ⟨pre, v, suf, heq, hpre⟩ := ih h2
      refine ⟨(a, b) :: pre, v, suf, by rw [heq]; rfl, ?_⟩
      intro hk
      rcases List.mem_cons.1 hk with hk | hk
      · exact hek hk.symm
      · exact hpre hk

/-- Every entry of `d` with key `k` carries the value `v`. -/
def AllVals (d : List (String × β)) (k : String) (v : β) : Prop :=
  ∀ e ∈ d, e.1 = k → e.2 = v

theorem AllVals_aset_self (d : List (String × β)) (k : String) (v : β) :
    AllVals (aset d k v) k v := by
  intro e he hek
  by_cases ha : d.any (fun e => e.1 = k) = true
  · rw [aset_eq, if_pos ha] at he
    rcases List.mem_map.1 he with ⟨e2, he2, heq⟩
    by_cases h2 : e2.1 = k
    · rw [if_pos h2] at heq
      rw [← heq]
    · rw [if_neg h2] at heq
      rw [← heq] at hek
      exact absurd hek h2
  · rw [aset_eq, if_neg ha] at he
    rcases List.mem_append.1 he with he | he
    · exact absurd (List.any_eq_true.2 ⟨e, he, by simpa using hek⟩) ha
    · rcases List.mem_singleton.1 he with rfl
      rfl

theorem AllVals_aset_ne (d : List (String × β)) (k k2 : String) (v v2 : β)
    (hkk : k2 ≠ k) (h : AllVals d k v) : AllVals (aset d k2 v2) k v := by
  intro e he hek
  refine h e (mem_aset_ne d k2 v2 e he ?_) hek
  rw [hek]
  exact fun hk => hkk hk.symm

theorem aset_id_of_AllVals (d : List (String × β)) (k : String) (v : β)
    (hany : d.any (fun e => e.1 = k) = true) (hall : AllVals d k v) :
    aset d k v = d := by
  unfold aset
  rw [if_pos hany]
  have h1 : ∀ e ∈ d, (if e.1 = k then ((k, v) : String × β) else e) = e := by
    intro e he
    by_cases hek : e.1 = k
    · rw [if_pos hek]
      have hv := hall e he hek
      calc ((k, v) : String × β) = (e.1, e.2) := by rw [hek, hv]
        _ = e := rfl
    · rw [if_neg hek]
  rw [List.map_congr_left h1]
  simp

end AssocMore

/-! ## `dict.update` as a pointwise overlay (toward claim C9) -/

theorem any_key_iff_mem_keys {β : Type} (d : List (String × β)) (c : String) :
    d.any (fun e => e.1 = c) = true ↔ c ∈ d.map Prod.fst := by
  rw [List.any_eq_true]
  constructor
  · rintro ⟨e, he, hek⟩
    exact List.mem_map.2 ⟨e, he, by simpa using hek⟩
  · rintro hm
    rcases List.mem_map.1 hm with ⟨e, he, hek⟩
    exact ⟨e, he, by simpa using hek⟩

/-- The field-overlay applied by `merged.update(pub)` to one prior entry. -/
def overlayF (q : Obj) (e : String × JVal) : String × JVal :=
  match aget q e.1 with
  | some v => (e.1, v)
  | none => e

theorem overlayF_of_some (q : Obj) (e : String × JVal) (v : JVal)
    (h : aget q e.1 = some v) : overlayF q e = (e.1, v) := by
  unfold overlayF
  rw [h]

theorem overlayF_of_none (q : Obj) (e : String × JVal)
    (h : aget q e.1 = none) : overlayF q e = e := by
  unfold overlayF
  rw [h]

/-- When every incoming field already exists on the prior object,
`update` replaces values in place: it is a pointwise map. -/
theorem dupdate_eq_map (q : Obj) : ∀ p : Obj,
    (q.map Prod.fst).Nodup →
    (∀ e ∈ q, p.any (fun x => x.1 = e.1) = true) →
    dupdate p q = p.map (overlayF q) := by
  induction q with
  | nil =>
    intro p _ _
    have h : ∀ e ∈ p, overlayF [] e = e := fun e _ => rfl
    rw [List.map_congr_left h]
    simp [dupdate]
  | cons ev q2 ih =>
    intro p hnodup hpres
    obtain ⟨k, v⟩ := ev
    rw [List.map_cons, List.nodup_cons] at hnodup
    have hk : p.any (fun x => x.1 = k) = true :=
      hpres (k, v) (List.mem_cons_self _ _)
    have hpres2 : ∀ e ∈ q2, (aset p k v).any (fun x => x.1 = e.1) = true := by
      intro e he
      rw [any_key_iff_mem_keys]
      exact mem_keys_aset p k e.1 v
        ((any_key_iff_mem_keys p e.1).1 (hpres e (List.mem_cons_of_mem _ he)))
    rw [dupdate_cons, ih (aset p k v) hnodup.2 hpres2]
    have haset : aset p k v = p.map (fun e => if e.1 = k then (k, v) else e) := by
      rw [aset_eq, if_pos hk]
    rw [haset, List.map_map]
    apply List.map_congr_left
    intro e he
    have hq2k : aget q2 k = none := by
      rw [aget_eq_none_iff]
      intro e2 he2 hk2
      have hm := List.mem_map_of_mem Prod.fst he2
      rw [hk2] at hm
      exact hnodup.1 hm
    by_cases hek : e.1 = k
    · have h1 : (overlayF q2 ∘ fun e => if e.1 = k then (k, v) else e) e
          = overlayF q2 (k, v) := by
        rw [Function.comp_apply, if_pos hek]
      have h2 : overlayF q2 (k, v) = (k, v) :=
        overlayF_of_none q2 (k, v) hq2k
      have h3 : overlayF ((k, v) :: q2) e = (k, v) := by
        have ha : aget ((k, v) :: q2) e.1 = some v := by
          rw [aget_cons, if_pos (show (k, v).1 = e.1 from hek.symm)]
        rw [overlayF_of_some _ _ _ ha, hek]
      rw [h1, h2, h3]
    · have h1 : (overlayF q2 ∘ fun e => if e.1 = k then (k, v) else e) e
          = overlayF q2 e := by
        rw [Function.comp_apply, if_neg hek]
      have ha : aget ((k, v) :: q2) e.1 = aget q2 e.1 := by
        rw [aget_cons, if_neg (show ¬ (k, v).1 = e.1 from fun h => hek h.symm)]
      rw [h1]
      show overlayF q2 e = overlayF ((k, v) :: q2) e
      unfold overlayF
      rw [ha]

theorem AllVals_dupdate_not_mem (d q : Obj) (k : String) (v : JVal)
    (hq : ∀ e ∈ q, e.1 ≠ k) (h : AllVals d k v) : AllVals (dupdate d q) k v := by
  induction q generalizing d with
  | nil => exact h
  | cons e2 q2 ih =>
    rw [dupdate_cons]
    exact ih _ (fun e he => hq e (List.mem_cons_of_mem _ he))
      (AllVals_aset_ne d k e2.1 v e2.2
        (fun hk => hq e2 (List.mem_cons_self _ _) hk) h)

/-- The characteristic value property of `update`: every entry of the
result whose key occurs (uniquely) in `q` carries `q`'s value. -/
theorem AllVals_dupdate (d q : Obj) (k : String) (v : JVal)
    (hnodup : (q.map Prod.fst).Nodup) (hq : aget q k = some v) :
    AllVals (dupdate d q) k v := by
  induction q generalizing d with
  | nil => exact Option.noConfusion hq
  | cons ev q2 ih =>
    obtain ⟨k2, v2⟩ := ev
    rw [List.map_cons, List.nodup_cons] at hnodup
    rw [dupdate_cons]
    by_cases hkk : k2 = k
    · subst hkk
      rw [aget_cons, if_pos rfl] at hq
      simp only at hq
      obtain rfl := Option.some_injective _ hq
      refine AllVals_dupdate_not_mem _ _ _ _ ?_ (AllVals_aset_self d k2 v2)
      intro e he hek
      have hm := List.mem_map_of_mem Prod.fst he
      rw [hek] at hm
      exact hnodup.1 hm
    · rw [aget_cons, if_neg hkk] at hq
      exact ih _ hnodup.2 hq

/-! ## `last_scraped` stamping lemmas (toward claim C9) -/

theorem stampPub_of_truthy (now : String) (p : Obj)
    (h : truthy ((aget p "last_scraped").getD JVal.null) = true) :
    stampPub now p = p := by
  unfold stampPub
  rw [if_pos h]

theorem stampPub_of_falsy (now : String) (p : Obj)
    (h : truthy ((aget p "last_scraped").getD JVal.null) = false) :
    stampPub now p = aset p "last_scraped" (JVal.str now) := by
  unfold stampPub
  rw [if_neg (by rw [h]; exact Bool.false_ne_true)]

theorem aget_stampPub_ne (now : String) (p : Obj) (k : String)
    (hk : k ≠ "last_scraped") : aget (stampPub now p) k = aget p k := by
  by_cases h : truthy ((aget p "last_scraped").getD JVal.null) = true
  · rw [stampPub_of_truthy now p h]
  · rw [stampPub_of_falsy now p (bool_eq_false h)]
    exact aget_aset_ne p "last_scraped" k (JVal.str now) hk

theorem stampPub_ls_truthy (now : String) (p : Obj) (hnow : now ≠ "") :
    truthy ((aget (stampPub now p) "last_scraped").getD JVal.null) = true := by
  by_cases h : truthy ((aget p "last_scraped").getD JVal.null) = true
  · rwa [stampPub_of_truthy now p h]
  · rw [stampPub_of_falsy now p (bool_eq_false h), aget_aset_self]
    simpa [truthy] using hnow

theorem stampPub_idem (now : String) (p : Obj) (hnow : now ≠ "") :
    stampPub now (stampPub now p) = stampPub now p :=
  stampPub_of_truthy now _ (stampPub_ls_truthy now p hnow)

theorem any_key_stampPub (now : String) (p : Obj) (c : String)
    (h : p.any (fun x => x.1 = c) = true) :
    (stampPub now p).any (fun x => x.1 = c) = true := by
  by_cases ht : truthy ((aget p "last_scraped").getD JVal.null) = true
  · rwa [stampPub_of_truthy now p ht]
  · rw [stampPub_of_falsy now p (bool_eq_false ht)]
    rw [any_key_iff_mem_keys] at h ⊢
    exact mem_keys_aset p "last_scraped" c (JVal.str now) h

theorem getStr_stampPub_ne (now : String) (p : Obj) (k : String)
    (hk : k ≠ "last_scraped") : getStr (stampPub now p) k = getStr p k := by
  unfold getStr
  rw [aget_stampPub_ne now p k hk]

theorem pidOf_stampPub (now : String) (p : Obj) :
    pidOf (stampPub now p) = pidOf p :=
  getStr_stampPub_ne now p "author_pub_id" (by decide)

/-! ## Absorption: a merged entry already holds its source's fields -/

/-- `m` absorbs `q`: every field of `q` is present on `m`, and every entry
of `m` keyed by a `q`-field carries `q`'s value. -/
def Absorbs (m q : Obj) : Prop :=
  (∀ e ∈ q, m.any (fun x => x.1 = e.1) = true)
  ∧ ∀ e ∈ m, ∀ v, aget q e.1 = some v → e.2 = v

theorem aget_of_mem_nodup {β : Type} (d : List (String × β)) (e : String × β)
    (he : e ∈ d) (hnodup : (d.map Prod.fst).Nodup) : aget d e.1 = some e.2 := by
  induction d with
  | nil => simp at he
  | cons e2 rest ih =>
    rw [List.map_cons, List.nodup_cons] at hnodup
    rcases List.mem_cons.1 he with rfl | he
    · rw [aget_cons, if_pos rfl]
    · have hne : ¬ e2.1 = e.1 := by
        intro hk
        have hm := List.mem_map_of_mem Prod.fst he
        rw [← hk] at hm
        exact hnodup.1 hm
      rw [aget_cons, if_neg hne]
      exact ih he hnodup.2

theorem absorbs_dupdate (ex q : Obj) (hnodup : (q.map Prod.fst).Nodup) :
    Absorbs (dupdate ex q) q := by
  constructor
  · intro e he
    exact any_key_of_aget_some _ _ _
      (dget_dupdate_of_some ex q e.1 e.2 hnodup (aget_of_mem_nodup q e he hnodup))
  · intro e he v hv
    exact AllVals_dupdate ex q e.1 v hnodup hv e he rfl

theorem absorbs_self (q : Obj) (hnodup : (q.map Prod.fst).Nodup) :
    Absorbs q q := by
  constructor
  · intro e he
    exact any_key_of_aget_some _ _ _ (aget_of_mem_nodup q e he hnodup)
  · intro e he v hv
    have h := aget_of_mem_nodup q e he hnodup
    rw [hv] at h
    exact (Option.some_injective _ h).symm

theorem dupdate_id_of_agree (p q : Obj) (hnodup : (q.map Prod.fst).Nodup)
    (hpres : ∀ e ∈ q, p.any (fun x => x.1 = e.1) = true)
    (hagree : ∀ e ∈ p, ∀ v, aget q e.1 = some v → e.2 = v) :
    dupdate p q = p := by
  rw [dupdate_eq_map q p hnodup hpres]
  have h : ∀ e ∈ p, overlayF q e = e := by
    intro e he
    cases hv : aget q e.1 with
    | none => exact overlayF_of_none q e hv
    | some v =>
      rw [overlayF_of_some q e v hv, ← hagree e he v hv]
  rw [List.map_congr_left h]
  simp

/-- The central replay fact for the second merge of identical content:
re-updating an absorbed, freshly stamped entry with the same source and
restamping gives that entry back. -/
theorem stamp_dupdate_absorbed (m q : Obj) (now : String) (hnow : now ≠ "")
    (hnodup : (q.map Prod.fst).Nodup) (hab : Absorbs m q) :
    stampPub now (dupdate (stampPub now m) q) = stampPub now m := by
  have hpres_p : ∀ e ∈ q, (stampPub now m).any (fun x => x.1 = e.1) = true :=
    fun e he => any_key_stampPub now m e.1 (hab.1 e he)
  by_cases hm : truthy ((aget m "last_scraped").getD JVal.null) = true
  · rw [stampPub_of_truthy now m hm] at hpres_p ⊢
    rw [dupdate_id_of_agree m q hnodup hpres_p hab.2]
    exact stampPub_of_truthy now m hm
  · have hp : stampPub now m = aset m "last_scraped" (JVal.str now) :=
      stampPub_of_falsy now m (bool_eq_false hm)
    cases hql : aget q "last_scraped" with
    | none =>
      rw [dupdate_id_of_agree (stampPub now m) q hnodup hpres_p ?_]
      · exact stampPub_idem now m hnow
      · intro e he v hv
        have hene : e.1 ≠ "last_scraped" := by
          intro hek
          rw [hek, hql] at hv
          exact Option.noConfusion hv
        refine hab.2 e ?_ v hv
        rw [hp] at he
        exact mem_aset_ne m "last_scraped" (JVal.str now) e he hene
    | some w =>
      -- the prior object also carries this falsy timestamp
      have hmem_q : ("last_scraped", w) ∈ q := mem_of_aget_eq_some q _ w hql
      have hany_m : m.any (fun x => x.1 = "last_scraped") = true := by
        have := hab.1 ("last_scraped", w) hmem_q
        simpa using this
      have hw_falsy : truthy w = false := by
        have hsome := aget_isSome_of_mem_keys m "last_scraped"
          ((any_key_iff_mem_keys m "last_scraped").1 hany_m)
        cases hu : aget m "last_scraped" with
        | none => rw [hu] at hsome; exact Bool.noConfusion hsome
        | some u =>
          have huw : u = w :=
            hab.2 _ (mem_of_aget_eq_some m _ u hu) w (by simpa using hql)
          rw [hu] at hm
          rw [← huw]
          exact bool_eq_false hm
      have hdup : dupdate (stampPub now m) q
          = aset (stampPub now m) "last_scraped" w := by
        have hanyp : (stampPub now m).any (fun x => x.1 = "last_scraped") = true := by
          have := hpres_p ("last_scraped", w) hmem_q
          simpa using this
        rw [dupdate_eq_map q (stampPub now m) hnodup hpres_p, aset_eq,
          if_pos hanyp]
        apply List.map_congr_left
        intro e he
        by_cases hek : e.1 = "last_scraped"
        · have ha : aget q e.1 = some w := by rw [hek, hql]
          rw [overlayF_of_some q e w ha, if_pos hek, hek]
        · rw [if_neg hek]
          cases hv : aget q e.1 with
          | none => exact overlayF_of_none q e hv
          | some v =>
            rw [overlayF_of_some q e v hv]
            have hem : e ∈ m := by
              rw [hp] at he
              exact mem_aset_ne m "last_scraped" (JVal.str now) e he hek
            rw [← hab.2 e hem v hv]
      rw [hdup, hp, aset_aset]
      have hfin : truthy ((aget (aset m "last_scraped" w)
          "last_scraped").getD JVal.null) = false := by
        rw [aget_aset_self]
        exact hw_falsy
      rw [stampPub_of_falsy now _ hfin, aset_aset]

/-! ## Structure of the publication-merge fold (toward claim C9) -/

theorem any_key_eq_of_keys_eq {β γ : Type} (d1 : List (String × β))
    (d2 : List (String × γ)) (c : String)
    (h : d1.map Prod.fst = d2.map Prod.fst) :
    d1.any (fun e => e.1 = c) = d2.any (fun e => e.1 = c) := by
  by_cases h1 : d1.any (fun e => e.1 = c) = true
  · have h2 : d2.any (fun e => e.1 = c) = true := by
      rw [any_key_iff_mem_keys, ← h]
      exact (any_key_iff_mem_keys d1 c).1 h1
    rw [h1, h2]
  · have h2 : ¬ d2.any (fun e => e.1 = c) = true := by
      intro hc
      have hm := (any_key_iff_mem_keys d2 c).1 hc
      rw [← h] at hm
      exact h1 ((any_key_iff_mem_keys d1 c).2 hm)
    rw [bool_eq_false h1, bool_eq_false h2]

theorem find?_pid_eq_none (N : List Obj) (c : String)
    (h : c ∉ N.map pidOf) : N.find? (fun q => pidOf q = c) = none := by
  rw [List.find?_eq_none]
  intro q hq
  simp only [decide_eq_true_eq]
  intro hc
  have hm := List.mem_map_of_mem pidOf hq
  rw [hc] at hm
  exact h hm

theorem find?_pid_self (N : List Obj) (q : Obj) (hq : q ∈ N)
    (hnd : (N.map pidOf).Nodup) :
    N.find? (fun q2 => pidOf q2 = pidOf q) = some q := by
  induction N with
  | nil => simp at hq
  | cons q0 rest ih =>
    rw [List.map_cons, List.nodup_cons] at hnd
    rcases List.mem_cons.1 hq with rfl | hq
    · rw [List.find?_cons_of_pos]
      simp
    · have hne : pidOf q0 ≠ pidOf q := by
        intro hk
        have hm := List.mem_map_of_mem pidOf hq
        rw [← hk] at hm
        exact hnd.1 hm
      rw [List.find?_cons_of_neg]
      · exact ih hq hnd.2
      · simpa using hne

/-- The per-entry overlay the merge fold performs on the prior map. -/
def overlayEntry (N : List Obj) (e : String × Obj) : String × Obj :=
  match N.find? (fun q => pidOf q = e.1) with
  | some q => (e.1, dupdate e.2 q)
  | none => e

theorem overlayEntry_of_some (N : List Obj) (e : String × Obj) (q : Obj)
    (h : N.find? (fun q2 => pidOf q2 = e.1) = some q) :
    overlayEntry N e = (e.1, dupdate e.2 q) := by
  unfold overlayEntry
  rw [h]

theorem overlayEntry_of_none (N : List Obj) (e : String × Obj)
    (h : N.find? (fun q2 => pidOf q2 = e.1) = none) :
    overlayEntry N e = e := by
  unfold overlayEntry
  rw [h]

theorem overlayEntry_nil (e : String × Obj) : overlayEntry [] e = e := rfl

theorem overlayEntry_cons_ne (q : Obj) (N : List Obj) (e : String × Obj)
    (h : pidOf q ≠ e.1) : overlayEntry (q :: N) e = overlayEntry N e := by
  unfold overlayEntry
  rw [List.find?_cons_of_neg _ (by simpa using h)]

theorem mergePubInto_of_found (m : List (String × Obj)) (pub ex : Obj)
    (hpid : pidOf pub ≠ "") (h : aget m (pidOf pub) = some ex) :
    mergePubInto m pub = aset m (pidOf pub) (dupdate ex pub) := by
  show (if pidOf pub = "" then m
    else match aget m (pidOf pub) with
      | some ex => aset m (pidOf pub) (dupdate ex pub)
      | none => m ++ [(pidOf pub, pub)]) = _
  rw [if_neg hpid, h]

theorem mergePubInto_of_missing (m : List (String × Obj)) (pub : Obj)
    (hpid : pidOf pub ≠ "") (h : aget m (pidOf pub) = none) :
    mergePubInto m pub = m ++ [(pidOf pub, pub)] := by
  show (if pidOf pub = "" then m
    else match aget m (pidOf pub) with
      | some ex => aset m (pidOf pub) (dupdate ex pub)
      | none => m ++ [(pidOf pub, pub)]) = _
  rw [if_neg hpid, h]

/-- Zones decomposition of the merge fold: the prior map's entries are
overlaid in place by matching incoming publications, and unmatched
incoming publications are appended at the end, in order. -/
theorem foldl_mergePubInto_zones (N : List Obj) : ∀ zone : List (String × Obj),
    (zone.map Prod.fst).Nodup →
    (∀ q ∈ N, pidOf q ≠ "") →
    (N.map pidOf).Nodup →
    N.foldl mergePubInto zone
      = zone.map (overlayEntry N)
        ++ (N.filter (fun q => ! zone.any (fun e => e.1 = pidOf q))).map
            (fun q => (pidOf q, q)) := by
  induction N with
  | nil =>
    intro zone _ _ _
    have h : ∀ e ∈ zone, overlayEntry [] e = e := fun e _ => rfl
    rw [List.foldl_nil, List.map_congr_left h, List.filter_nil, List.map_nil,
      List.append_nil]
    simp
  | cons q N2 ih =>
    intro zone hznd hNpid hNnd
    have hqpid : pidOf q ≠ "" := hNpid q (List.mem_cons_self _ _)
    rw [List.map_cons, List.nodup_cons] at hNnd
    rw [List.foldl_cons]
    by_cases hz : zone.any (fun e => e.1 = pidOf q) = true
    · -- matched in the prior zone: replace in place
      have hsome := aget_isSome_of_mem_keys zone (pidOf q)
        ((any_key_iff_mem_keys zone (pidOf q)).1 hz)
      obtain ⟨ex, hex⟩ := Option.isSome_iff_exists.1 hsome
      rw [mergePubInto_of_found zone q ex hqpid hex]
      have hkeys : (aset zone (pidOf q) (dupdate ex q)).map Prod.fst
          = zone.map Prod.fst := keys_aset_of_mem zone (pidOf q) _ hz
      rw [ih (aset zone (pidOf q) (dupdate ex q))
        (by rw [hkeys]; exact hznd)
        (fun q2 hq2 => hNpid q2 (List.mem_cons_of_mem _ hq2)) hNnd.2]
      have hmapeq : (aset zone (pidOf q) (dupdate ex q)).map (overlayEntry N2)
          = zone.map (overlayEntry (q :: N2)) := by
        have haset : aset zone (pidOf q) (dupdate ex q)
            = zone.map (fun e => if e.1 = pidOf q then (pidOf q, dupdate ex q) else e) := by
          rw [aset_eq, if_pos hz]
        rw [haset, List.map_map]
        apply List.map_congr_left
        intro e he
        by_cases hek : e.1 = pidOf q
        · have h1 : (overlayEntry N2 ∘ fun e =>
              if e.1 = pidOf q then (pidOf q, dupdate ex q) else e) e
              = overlayEntry N2 (pidOf q, dupdate ex q) := by
            rw [Function.comp_apply, if_pos hek]
          have h2 : overlayEntry N2 (pidOf q, dupdate ex q)
              = (pidOf q, dupdate ex q) := by
            refine overlayEntry_of_none N2 _ (find?_pid_eq_none N2 _ ?_)
            exact hNnd.1
          have hfind : (q :: N2).find? (fun q2 => pidOf q2 = e.1) = some q := by
            rw [List.find?_cons_of_pos]
            simp [hek]
          have h3 : overlayEntry (q :: N2) e = (e.1, dupdate e.2 q) :=
            overlayEntry_of_some _ _ _ hfind
          have hexe : ex = e.2 := by
            have hgete := aget_of_mem_nodup zone e he hznd
            rw [hek] at hgete
            rw [hgete] at hex
            exact (Option.some_injective _ hex).symm
          rw [h1, h2, h3, hek, hexe]
        · have h1 : (overlayEntry N2 ∘ fun e =>
              if e.1 = pidOf q then (pidOf q, dupdate ex q) else e) e
              = overlayEntry N2 e := by
            rw [Function.comp_apply, if_neg hek]
          rw [h1, overlayEntry_cons_ne q N2 e (fun h => hek h.symm)]
      have hfiltereq : N2.filter (fun q2 =>
            ! (aset zone (pidOf q) (dupdate ex q)).any (fun e => e.1 = pidOf q2))
          = N2.filter (fun q2 => ! zone.any (fun e => e.1 = pidOf q2)) := by
        apply List.filter_congr
        intro q2 _
        rw [any_key_eq_of_keys_eq _ zone (pidOf q2) hkeys]
      have hfq : (q :: N2).filter (fun q2 => ! zone.any (fun e => e.1 = pidOf q2))
          = N2.filter (fun q2 => ! zone.any (fun e => e.1 = pidOf q2)) := by
        rw [List.filter_cons]
        rw [if_neg (by rw [hz]; simp)]
      rw [hmapeq, hfiltereq, hfq]
    · -- not in the prior zone: append as new
      have hnone : aget zone (pidOf q) = none :=
        aget_none_of_any_key_false zone (pidOf q) (bool_eq_false hz)
      rw [mergePubInto_of_missing zone q hqpid hnone]
      have hkeys2 : (zone ++ [(pidOf q, q)]).map Prod.fst
          = zone.map Prod.fst ++ [pidOf q] := by
        rw [List.map_append]
        rfl
      have hznd2 : ((zone ++ [(pidOf q, q)]).map Prod.fst).Nodup := by
        rw [hkeys2, List.nodup_append]
        refine ⟨hznd, List.nodup_singleton _, ?_⟩
        intro x hx hx2
        rcases List.mem_singleton.1 hx2 with rfl
        exact hz ((any_key_iff_mem_keys zone _).2 hx)
      rw [ih (zone ++ [(pidOf q, q)]) hznd2
        (fun q2 hq2 => hNpid q2 (List.mem_cons_of_mem _ hq2)) hNnd.2]
      have hmapeq : (zone ++ [(pidOf q, q)]).map (overlayEntry N2)
          = zone.map (overlayEntry (q :: N2)) ++ [(pidOf q, q)] := by
        rw [List.map_append]
        have h1 : zone.map (overlayEntry N2)
            = zone.map (overlayEntry (q :: N2)) := by
          apply List.map_congr_left
          intro e he
          refine (overlayEntry_cons_ne q N2 e ?_).symm
          intro hk
          have : zone.any (fun e2 => e2.1 = pidOf q) = true :=
            (any_key_iff_mem_keys zone (pidOf q)).2
              (by rw [hk]; exact List.mem_map_of_mem Prod.fst he)
          rw [this] at hz
          exact hz rfl
        have h2 : [((pidOf q, q) : String × Obj)].map (overlayEntry N2)
            = [(pidOf q, q)] := by
          rw [List.map_singleton]
          rw [overlayEntry_of_none N2 _ (find?_pid_eq_none N2 _ hNnd.1)]
        rw [h1, h2]
      have hfiltereq : N2.filter (fun q2 =>
            ! (zone ++ [(pidOf q, q)]).any (fun e => e.1 = pidOf q2))
          = N2.filter (fun q2 => ! zone.any (fun e => e.1 = pidOf q2)) := by
        apply List.filter_congr
        intro q2 hq2
        have hne : pidOf q ≠ pidOf q2 := by
          intro hk
          have hm := List.mem_map_of_mem pidOf hq2
          rw [← hk] at hm
          exact hNnd.1 hm
        have : (zone ++ [(pidOf q, q)]).any (fun e => e.1 = pidOf q2)
            = zone.any (fun e => e.1 = pidOf q2) := by
          rw [List.any_append]
          have : ([((pidOf q, q) : String × Obj)].any fun e => e.1 = pidOf q2)
              = false := by
            simp [hne]
          rw [this, Bool.or_false]
        rw [this]
      have hfq : (q :: N2).filter (fun q2 => ! zone.any (fun e => e.1 = pidOf q2))
          = (pidOf q, q).2 :: N2.filter (fun q2 => ! zone.any (fun e => e.1 = pidOf q2)) := by
        rw [List.filter_cons, if_pos (by rw [bool_eq_false hz]; rfl)]
      rw [hmapeq, hfiltereq, hfq, List.map_cons]
      rw [List.append_assoc]
      rfl

/-! ## Dedupe replay machinery (toward claim C9) -/

theorem dedupePubsAux_append (xs ys : List JVal) (seen : List String) :
    dedupePubsAux seen (xs ++ ys)
      = ((dedupePubsAux seen xs).1
          ++ (dedupePubsAux (dedupePubsAux seen xs).2 ys).1,
         (dedupePubsAux (dedupePubsAux seen xs).2 ys).2) := by
  induction xs generalizing seen with
  | nil => simp [dedupePubsAux]
  | cons v rest ih =>
    cases v with
    | obj p =>
      by_cases h : seen.contains (dedupeKey p) = true
      · rw [List.cons_append, dedupePubsAux_cons_obj_seen seen p _ h,
          dedupePubsAux_cons_obj_seen seen p rest h]
        exact ih seen
      · rw [List.cons_append, dedupePubsAux_cons_obj_fresh seen p _ (bool_eq_false h),
          dedupePubsAux_cons_obj_fresh seen p rest (bool_eq_false h), ih]
        rfl
    | null => exact ih seen
    | bool b => exact ih seen
    | num n => exact ih seen
    | str s2 => exact ih seen
    | arr ys2 => exact ih seen

theorem dedupe_all_fresh (ps : List Obj) (seen : List String)
    (hnd : (ps.map dedupeKey).Nodup) (hfresh : ∀ p ∈ ps, dedupeKey p ∉ seen) :
    dedupePubsAux seen (ps.map JVal.obj)
      = (ps, (ps.map dedupeKey).reverse ++ seen) := by
  induction ps generalizing seen with
  | nil => rfl
  | cons p rest ih =>
    rw [List.map_cons, List.nodup_cons] at hnd
    have hc : seen.contains (dedupeKey p) = false := by
      refine bool_eq_false ?_
      intro hcc
      exact hfresh p (List.mem_cons_self _ _) ((contains_iff seen _).1 hcc)
    rw [List.map_cons, dedupePubsAux_cons_obj_fresh seen p _ hc]
    have hfresh2 : ∀ p2 ∈ rest, dedupeKey p2 ∉ dedupeKey p :: seen := by
      intro p2 hp2 hmem
      rcases List.mem_cons.1 hmem with hk | hk
      · exact hnd.1 (hk ▸ List.mem_map_of_mem dedupeKey hp2)
      · exact hfresh p2 (List.mem_cons_of_mem _ hp2) hk
    rw [ih (dedupeKey p :: seen) hnd.2 hfresh2]
    rw [List.map_cons, List.reverse_cons, List.append_assoc]
    rfl

theorem dedupe_all_seen (qs : List Obj) (seen : List String)
    (hseen : ∀ q ∈ qs, dedupeKey q ∈ seen) :
    dedupePubsAux seen (qs.map JVal.obj) = ([], seen) := by
  induction qs with
  | nil => rfl
  | cons q rest ih =>
    have hc : seen.contains (dedupeKey q) = true :=
      (contains_iff seen _).2 (hseen q (List.mem_cons_self _ _))
    rw [List.map_cons, dedupePubsAux_cons_obj_seen seen q _ hc]
    exact ih (fun q2 hq2 => hseen q2 (List.mem_cons_of_mem _ hq2))

/-- The seen set after the dedupe pass has visited a list of authors. -/
def dedupeAuthorsSeen (seen : List String) : List (String × Obj) → List String
  | [] => seen
  | (_, a) :: rest => dedupeAuthorsSeen (dedupePubsAux seen (pubsArr a)).2 rest

theorem dedupeAuthors_append (xs ys : List (String × Obj)) (seen : List String) :
    dedupeAuthors seen (xs ++ ys)
      = dedupeAuthors seen xs ++ dedupeAuthors (dedupeAuthorsSeen seen xs) ys := by
  induction xs generalizing seen with
  | nil => rfl
  | cons e rest ih =>
    obtain ⟨k, a⟩ := e
    rw [List.cons_append, dedupeAuthors_cons, dedupeAuthors_cons, ih]
    rfl

theorem pubsArr_aset_arr (a : Obj) (xs : List JVal) :
    pubsArr (aset a "publications" (JVal.arr xs)) = xs := by
  unfold pubsArr
  rw [aget_aset_self]

/-- Replaying the dedupe pass over its own output, at the same incoming
seen set, changes nothing. -/
theorem dedupeAuthors_replay (am : List (String × Obj)) : ∀ seen : List String,
    dedupeAuthors seen (dedupeAuthors seen am) = dedupeAuthors seen am
    ∧ dedupeAuthorsSeen seen (dedupeAuthors seen am)
      = dedupeAuthorsSeen seen am := by
  induction am with
  | nil => exact fun seen => ⟨rfl, rfl⟩
  | cons e rest ih =>
    intro seen
    obtain ⟨k, a⟩ := e
    rw [dedupeAuthors_cons seen k a rest]
    have h1 := dedupePubsAux_keys_nodup (pubsArr a) seen
    have hded : dedupePubsAux seen
        ((dedupePubsAux seen (pubsArr a)).1.map JVal.obj)
        = ((dedupePubsAux seen (pubsArr a)).1,
           (dedupePubsAux seen (pubsArr a)).2) := by
      rw [dedupe_all_fresh (dedupePubsAux seen (pubsArr a)).1 seen h1.1
        (fun p hp => h1.2 _ (List.mem_map_of_mem dedupeKey hp))]
      rw [← dedupePubsAux_seen_eq]
    constructor
    · rw [dedupeAuthors_cons, pubsArr_aset_arr, hded]
      rw [aset_aset]
      have := (ih (dedupePubsAux seen (pubsArr a)).2).1
      rw [this]
    · show dedupeAuthorsSeen
        (dedupePubsAux seen (pubsArr (aset a "publications"
          (JVal.arr ((dedupePubsAux seen (pubsArr a)).1.map JVal.obj))))).2
        (dedupeAuthors (dedupePubsAux seen (pubsArr a)).2 rest)
        = _
      rw [pubsArr_aset_arr, hded]
      exact (ih (dedupePubsAux seen (pubsArr a)).2).2

theorem keys_dedupeAuthors (am : List (String × Obj)) : ∀ seen : List String,
    (dedupeAuthors seen am).map Prod.fst = am.map Prod.fst := by
  induction am with
  | nil => exact fun _ => rfl
  | cons e rest ih =>
    intro seen
    obtain ⟨k, a⟩ := e
    rw [dedupeAuthors_cons, List.map_cons, List.map_cons, ih]

/-! ## Author-level lemmas (toward claim C9) -/

theorem setPubs_eq_aset (a : Obj) (ps : List Obj) :
    setPubs a ps = aset a "publications" (JVal.arr (ps.map JVal.obj)) := rfl

theorem pubsArr_setPubs (a : Obj) (ps : List Obj) :
    pubsArr (setPubs a ps) = ps.map JVal.obj :=
  pubsArr_aset_arr a _

theorem sidOf_setPubs (a : Obj) (ps : List Obj) :
    sidOf (setPubs a ps) = sidOf a := by
  unfold sidOf getStr setPubs
  rw [aget_aset_ne a "publications" "scholar_id" _ (by decide)]

theorem setPubs_setPubs (a : Obj) (ps ps2 : List Obj) :
    setPubs (setPubs a ps) ps2 = setPubs a ps2 :=
  aset_aset a "publications" _ _

theorem stampAuthor_of_arr (now : String) (a : Obj) (xs : List JVal)
    (h : aget a "publications" = some (JVal.arr xs)) :
    stampAuthor now a = aset a "publications" (JVal.arr (xs.map (fun v =>
      match v with
      | JVal.obj f => JVal.obj (stampPub now f)
      | v => v))) := by
  unfold stampAuthor
  rw [h]

theorem stampAuthor_setPubs (now : String) (a : Obj) (ps : List Obj) :
    stampAuthor now (setPubs a ps) = setPubs a (ps.map (stampPub now)) := by
  rw [stampAuthor_of_arr now _ (ps.map JVal.obj)
    (by rw [setPubs_eq_aset]; exact aget_aset_self a _ _)]
  rw [setPubs_eq_aset, setPubs_eq_aset, aset_aset, List.map_map, List.map_map]
  rfl

theorem stampAuthor_setPubs_stamped (now : String) (a : Obj) (ps : List Obj)
    (h : ∀ p ∈ ps, stampPub now p = p) :
    stampAuthor now (setPubs a ps) = setPubs a ps := by
  rw [stampAuthor_setPubs, List.map_congr_left h]
  simp

theorem mergeAuthorsStep_of_found (am : List (String × Obj)) (a old : Obj)
    (hne : a.isEmpty = false) (hsid : sidOf a ≠ "")
    (h : aget am (sidOf a) = some old) :
    mergeAuthorsStep am a
      = aset am (sidOf a)
          (setPubs a (mergedPubs (getPubs old) (getPubs a))) := by
  show (if a.isEmpty = true then am
    else if sidOf a = "" then am
    else match aget am (sidOf a) with
      | some old_author =>
          aset am (sidOf a)
            (setPubs a (mergedPubs (getPubs old_author) (getPubs a)))
      | none => am ++ [(sidOf a, setPubs a (getPubs a))]) = _
  rw [if_neg (by rw [hne]; exact Bool.false_ne_true), if_neg hsid, h]

theorem mergeAuthorsStep_of_new (am : List (String × Obj)) (a : Obj)
    (hne : a.isEmpty = false) (hsid : sidOf a ≠ "")
    (h : aget am (sidOf a) = none) :
    mergeAuthorsStep am a = am ++ [(sidOf a, setPubs a (getPubs a))] := by
  show (if a.isEmpty = true then am
    else if sidOf a = "" then am
    else match aget am (sidOf a) with
      | some old_author =>
          aset am (sidOf a)
            (setPubs a (mergedPubs (getPubs old_author) (getPubs a)))
      | none => am ++ [(sidOf a, setPubs a (getPubs a))]) = _
  rw [if_neg (by rw [hne]; exact Bool.false_ne_true), if_neg hsid, h]

/-! ## Map invariants of the author pipeline (toward claim C9) -/

theorem isEmpty_false_of_sid (a : Obj) (h : sidOf a ≠ "") :
    a.isEmpty = false := by
  cases a with
  | nil => exact absurd rfl h
  | cons e rest => rfl

theorem keys_map_stampE (now : String) (l : List (String × Obj)) :
    (l.map (fun e => (e.1, stampAuthor now e.2))).map Prod.fst
      = l.map Prod.fst := by
  rw [List.map_map]
  rfl

theorem sidOf_stampAuthor (now : String) (a : Obj) :
    sidOf (stampAuthor now a) = sidOf a := by
  cases hp : aget a "publications" with
  | none =>
    unfold stampAuthor
    rw [hp]
  | some v =>
    cases v with
    | arr xs =>
      rw [stampAuthor_of_arr now a xs hp]
      unfold sidOf getStr
      rw [aget_aset_ne a "publications" "scholar_id" _ (by decide)]
    | null => unfold stampAuthor; rw [hp]
    | bool b => unfold stampAuthor; rw [hp]
    | num n => unfold stampAuthor; rw [hp]
    | str s2 => unfold stampAuthor; rw [hp]
    | obj fs => unfold stampAuthor; rw [hp]

/-- Keys of the author map are the scholar ids of its values, and are
non-empty; keys are pairwise distinct. -/
def SidInv (m : List (String × Obj)) : Prop :=
  ∀ e ∈ m, sidOf e.2 = e.1 ∧ e.1 ≠ ""

theorem sidinv_aset (m : List (String × Obj)) (k : String) (v : Obj)
    (hm : SidInv m) (hv : sidOf v = k) (hk : k ≠ "") : SidInv (aset m k v) := by
  intro e he
  by_cases hek : e.1 = k
  · have hall := AllVals_aset_self m k v e he hek
    rw [hall, hek, hv]
    exact ⟨rfl, hk⟩
  · exact hm e (mem_aset_ne m k v e he hek)

theorem buildAuthorMap_fold_facts (l : List Obj) :
    ∀ acc : List (String × Obj), (acc.map Prod.fst).Nodup → SidInv acc →
    ((l.foldl (fun m a => if sidOf a ≠ "" then aset m (sidOf a) a else m)
        acc).map Prod.fst).Nodup
    ∧ SidInv (l.foldl (fun m a => if sidOf a ≠ "" then aset m (sidOf a) a
        else m) acc) := by
  induction l with
  | nil => exact fun acc hnd hinv => ⟨hnd, hinv⟩
  | cons a rest ih =>
    intro acc hnd hinv
    rw [List.foldl_cons]
    by_cases hs : sidOf a ≠ ""
    · rw [if_pos hs]
      exact ih _ (keys_nodup_aset acc (sidOf a) a hnd)
        (sidinv_aset acc (sidOf a) a hinv rfl hs)
    · rw [if_neg hs]
      exact ih acc hnd hinv

theorem buildAuthorMap_facts (existing : List Obj) :
    ((buildAuthorMap existing).map Prod.fst).Nodup
    ∧ SidInv (buildAuthorMap existing) :=
  buildAuthorMap_fold_facts existing []
    List.nodup_nil (fun e he => absurd he (List.not_mem_nil e))

theorem buildAuthorMap_fold_rebuild (m : List (String × Obj)) :
    ∀ acc : List (String × Obj),
    SidInv m →
    (m.map Prod.fst).Nodup →
    (∀ e ∈ m, e.1 ∉ acc.map Prod.fst) →
    (m.map Prod.snd).foldl
      (fun mm a => if sidOf a ≠ "" then aset mm (sidOf a) a else mm) acc
      = acc ++ m := by
  induction m with
  | nil =>
    intro acc _ _ _
    simp
  | cons e rest ih =>
    intro acc hinv hnd hdisj
    obtain ⟨k, v⟩ := e
    obtain ⟨hk, hkne⟩ := hinv (k, v) (List.mem_cons_self _ _)
    rw [List.map_cons, List.nodup_cons] at hnd
    rw [List.map_cons, List.foldl_cons]
    have hstep : (if sidOf v ≠ "" then aset acc (sidOf v) v else acc)
        = acc ++ [(k, v)] := by
      simp only at hk
      rw [hk, if_pos hkne]
      refine aset_of_aget_none acc k v ?_
      rw [aget_eq_none_iff]
      intro e2 he2 hk2
      have hm2 := List.mem_map_of_mem Prod.fst he2
      rw [hk2] at hm2
      exact hdisj (k, v) (List.mem_cons_self _ _) hm2
    rw [hstep, ih (acc ++ [(k, v)])
      (fun e2 he2 => hinv e2 (List.mem_cons_of_mem _ he2)) hnd.2 ?_]
    · rw [List.append_assoc]
      rfl
    · intro e2 he2 hmem
      rw [List.map_append] at hmem
      rcases List.mem_append.1 hmem with hmem | hmem
      · exact hdisj e2 (List.mem_cons_of_mem _ he2) hmem
      · rcases List.mem_singleton.1 hmem with hmem
        have hm2 := List.mem_map_of_mem Prod.fst he2
        rw [hmem] at hm2
        exact hnd.1 hm2

theorem buildAuthorMap_rebuild (m : List (String × Obj))
    (hinv : SidInv m) (hnd : (m.map Prod.fst).Nodup) :
    buildAuthorMap (m.map Prod.snd) = m := by
  show (m.map Prod.snd).foldl
      (fun mm a => if sidOf a ≠ "" then aset mm (sidOf a) a else mm) [] = m
  rw [buildAuthorMap_fold_rebuild m [] hinv hnd (by simp)]
  rfl

/-! ## Publication-map key facts -/

theorem buildPubMap_fold_keys (l : List Obj) :
    ∀ acc : List (String × Obj), (acc.map Prod.fst).Nodup →
    (∀ k ∈ acc.map Prod.fst, k ≠ "") →
    ((l.foldl (fun m p => if pidOf p ≠ "" then aset m (pidOf p) p else m)
        acc).map Prod.fst).Nodup
    ∧ (∀ k ∈ (l.foldl (fun m p => if pidOf p ≠ "" then aset m (pidOf p) p
        else m) acc).map Prod.fst, k ≠ "") := by
  induction l with
  | nil => exact fun acc h1 h2 => ⟨h1, h2⟩
  | cons p rest ih =>
    intro acc h1 h2
    rw [List.foldl_cons]
    by_cases hp : pidOf p ≠ ""
    · rw [if_pos hp]
      refine ih _ (keys_nodup_aset acc (pidOf p) p h1) ?_
      intro k hk
      by_cases ha : acc.any (fun e => e.1 = pidOf p) = true
      · rw [keys_aset_of_mem acc (pidOf p) p ha] at hk
        exact h2 k hk
      · rw [keys_aset_of_not_mem acc (pidOf p) p (bool_eq_false ha)] at hk
        rcases List.mem_append.1 hk with hk | hk
        · exact h2 k hk
        · rcases List.mem_singleton.1 hk with rfl
          exact hp
    · rw [if_neg hp]
      exact ih acc h1 h2

theorem buildPubMap_keys (ps : List Obj) :
    ((buildPubMap ps).map Prod.fst).Nodup
    ∧ ∀ k ∈ (buildPubMap ps).map Prod.fst, k ≠ "" :=
  buildPubMap_fold_keys ps [] List.nodup_nil (by simp)

theorem buildPubMap_fold_of_pids (ps : List Obj) :
    ∀ acc : List (String × Obj),
    (∀ p ∈ ps, pidOf p ≠ "") → (ps.map pidOf).Nodup →
    (∀ p ∈ ps, pidOf p ∉ acc.map Prod.fst) →
    ps.foldl (fun m p => if pidOf p ≠ "" then aset m (pidOf p) p else m) acc
      = acc ++ ps.map (fun p => (pidOf p, p)) := by
  induction ps with
  | nil =>
    intro acc _ _ _
    simp
  | cons p rest ih =>
    intro acc hpid hnd hdisj
    rw [List.map_cons, List.nodup_cons] at hnd
    rw [List.foldl_cons, if_pos (hpid p (List.mem_cons_self _ _))]
    have hstep : aset acc (pidOf p) p = acc ++ [(pidOf p, p)] := by
      refine aset_of_aget_none acc (pidOf p) p ?_
      rw [aget_eq_none_iff]
      intro e2 he2 hk2
      have hm2 := List.mem_map_of_mem Prod.fst he2
      rw [hk2] at hm2
      exact hdisj p (List.mem_cons_self _ _) hm2
    rw [hstep, ih (acc ++ [(pidOf p, p)])
      (fun q hq => hpid q (List.mem_cons_of_mem _ hq)) hnd.2 ?_]
    · rw [List.append_assoc]
      rfl
    · intro q hq hmem
      rw [List.map_append] at hmem
      rcases List.mem_append.1 hmem with hmem | hmem
      · exact hdisj q (List.mem_cons_of_mem _ hq) hmem
      · rcases List.mem_singleton.1 hmem with hmem
        have hm2 := List.mem_map_of_mem pidOf hq
        rw [hmem] at hm2
        exact hnd.1 hm2

theorem buildPubMap_of_pids (ps : List Obj)
    (hpid : ∀ p ∈ ps, pidOf p ≠ "") (hnd : (ps.map pidOf).Nodup) :
    buildPubMap ps = ps.map (fun p => (pidOf p, p)) := by
  have h2 := buildPubMap_fold_of_pids ps [] hpid hnd (by simp)
  unfold buildPubMap
  rw [h2]
  rfl

/-! ## Stamping is idempotent across the dedupe pass -/

theorem stampAuthor_of_not_arr (now : String) (a : Obj)
    (h : ∀ xs, aget a "publications" ≠ some (JVal.arr xs)) :
    stampAuthor now a = a := by
  cases hg : aget a "publications" with
  | none => unfold stampAuthor; rw [hg]
  | some v =>
    cases v with
    | arr xs => exact absurd hg (h xs)
    | null => unfold stampAuthor; rw [hg]
    | bool b => unfold stampAuthor; rw [hg]
    | num n => unfold stampAuthor; rw [hg]
    | str s2 => unfold stampAuthor; rw [hg]
    | obj fs => unfold stampAuthor; rw [hg]

theorem pubsArr_stampAuthor (now : String) (a : Obj) :
    pubsArr (stampAuthor now a)
      = (pubsArr a).map (fun v => match v with
          | JVal.obj f => JVal.obj (stampPub now f)
          | v => v) := by
  cases hg : aget a "publications" with
  | none =>
    rw [stampAuthor_of_not_arr now a (by simp [hg])]
    simp [pubsArr, hg]
  | some v =>
    cases v with
    | arr xs =>
      rw [stampAuthor_of_arr now a xs hg, pubsArr_aset_arr]
      unfold pubsArr
      rw [hg]
    | null =>
      rw [stampAuthor_of_not_arr now a (by simp [hg])]
      simp [pubsArr, hg]
    | bool b =>
      rw [stampAuthor_of_not_arr now a (by simp [hg])]
      simp [pubsArr, hg]
    | num n =>
      rw [stampAuthor_of_not_arr now a (by simp [hg])]
      simp [pubsArr, hg]
    | str s2 =>
      rw [stampAuthor_of_not_arr now a (by simp [hg])]
      simp [pubsArr, hg]
    | obj fs =>
      rw [stampAuthor_of_not_arr now a (by simp [hg])]
      simp [pubsArr, hg]

theorem mem_pubsArr_stampAuthor_obj (now : String) (a : Obj) (f : Obj)
    (h : JVal.obj f ∈ pubsArr (stampAuthor now a)) :
    ∃ g, f = stampPub now g := by
  rw [pubsArr_stampAuthor] at h
  rcases List.mem_map.1 h with ⟨v, hv, heq⟩
  cases v with
  | obj g => exact ⟨g, (JVal.obj.inj heq).symm⟩
  | null => exact JVal.noConfusion heq
  | bool b => exact JVal.noConfusion heq
  | num n => exact JVal.noConfusion heq
  | str s2 => exact JVal.noConfusion heq
  | arr ys => exact JVal.noConfusion heq

theorem mem_filterMap_objOf (xs : List JVal) (p : Obj) :
    p ∈ xs.filterMap objOf ↔ JVal.obj p ∈ xs := by
  rw [List.mem_filterMap]
  constructor
  · rintro ⟨v, hv, hov⟩
    cases v with
    | obj g =>
      have hg : g = p := Option.some.inj hov
      rw [← hg]
      exact hv
    | null => exact Option.noConfusion hov
    | bool b => exact Option.noConfusion hov
    | num n => exact Option.noConfusion hov
    | str s2 => exact Option.noConfusion hov
    | arr ys => exact Option.noConfusion hov
  · intro h
    exact ⟨JVal.obj p, h, rfl⟩

theorem stamped_of_mem_dedupe_stampAuthor (now : String) (a : Obj)
    (seen : List String) (p : Obj)
    (hp : p ∈ (dedupePubsAux seen (pubsArr (stampAuthor now a))).1) :
    ∃ g, p = stampPub now g := by
  have hs := (dedupePubsAux_sublist (pubsArr (stampAuthor now a)) seen).subset hp
  exact mem_pubsArr_stampAuthor_obj now a p ((mem_filterMap_objOf _ p).1 hs)

/-- Re-stamping the output of the dedupe pass over already-stamped authors
is a no-op. -/
theorem stampAuthor_noop_after_dedupe (now : String) (hnow : now ≠ "")
    (am : List (String × Obj)) :
    ∀ seen : List String,
    (dedupeAuthors seen (am.map (fun e => (e.1, stampAuthor now e.2)))).map
        (fun e => (e.1, stampAuthor now e.2))
      = dedupeAuthors seen (am.map (fun e => (e.1, stampAuthor now e.2))) := by
  induction am with
  | nil => exact fun _ => rfl
  | cons e rest ih =>
    intro seen
    obtain ⟨k, a⟩ := e
    simp only [List.map_cons]
    rw [dedupeAuthors_cons]
    simp only [List.map_cons]
    rw [← setPubs_eq_aset, ih]
    have hstamped : ∀ p ∈ (dedupePubsAux seen
        (pubsArr (stampAuthor now a))).1, stampPub now p = p := by
      intro p hp
      rcases stamped_of_mem_dedupe_stampAuthor now a seen p hp with ⟨g, hg⟩
      rw [hg, stampPub_idem now g hnow]
    rw [stampAuthor_setPubs_stamped now _ _ hstamped]

/-! ## Title keys under absorption -/

theorem getStr_of_aget_str (p : Obj) (k t : String)
    (h : aget p k = some (JVal.str t)) : getStr p k = t := by
  unfold getStr
  rw [h]

theorem extractTitle_of_title (p : Obj) (t : String)
    (h : getStr p "title" = t) (htne : t ≠ "") : extractTitle p = t := by
  unfold extractTitle
  rw [h, if_pos htne]

theorem dedupeKey_of_title (p : Obj) (t : String)
    (h : getStr p "title" = t) (htne : t ≠ "")
    (hn : normalize_title_for_dedupe t ≠ "") :
    dedupeKey p = normalize_title_for_dedupe t := by
  show (if normalize_title_for_dedupe (extractTitle p) = ""
    then "__id__:" ++ pidOf p else normalize_title_for_dedupe (extractTitle p))
    = normalize_title_for_dedupe t
  rw [extractTitle_of_title p t h htne, if_neg hn]

theorem aget_title_of_absorbs (m q : Obj) (t : String)
    (hab : Absorbs m q) (ht : aget q "title" = some (JVal.str t)) :
    aget m "title" = some (JVal.str t) := by
  have hmem : ("title", JVal.str t) ∈ q := mem_of_aget_eq_some q _ _ ht
  have hany : m.any (fun e => e.1 = "title") = true :=
    hab.1 ("title", JVal.str t) hmem
  have hkm := (any_key_iff_mem_keys m "title").1 hany
  rcases Option.isSome_iff_exists.1 (aget_isSome_of_mem_keys m "title" hkm)
    with ⟨v, hv⟩
  have hv2 := hab.2 ("title", v) (mem_of_aget_eq_some m "title" v hv)
    (JVal.str t) ht
  exact hv.trans (congrArg some hv2)

theorem dedupeKey_stamp_of_absorbs (m q : Obj) (t now : String)
    (hab : Absorbs m q) (ht : aget q "title" = some (JVal.str t))
    (htne : t ≠ "") (hn : normalize_title_for_dedupe t ≠ "") :
    dedupeKey (stampPub now m) = normalize_title_for_dedupe t := by
  have hm := aget_title_of_absorbs m q t hab ht
  refine dedupeKey_of_title _ t ?_ htne hn
  unfold getStr
  rw [aget_stampPub_ne now m "title" (by decide), hm]

/-! ## Distinct-pid injectivity -/

theorem eq_of_pid_eq (N : List Obj) (hnd : (N.map pidOf).Nodup)
    (q q2 : Obj) (hq : q ∈ N) (hq2 : q2 ∈ N) (hpp : pidOf q2 = pidOf q) :
    q2 = q := by
  have h1 := find?_pid_self N q hq hnd
  have h2 := find?_pid_self N q2 hq2 hnd
  rw [hpp] at h2
  rw [h1] at h2
  exact (Option.some.inj h2).symm

/-! ## Structure of a merged publication list -/

theorem fst_overlayEntry (N : List Obj) (e : String × Obj) :
    (overlayEntry N e).1 = e.1 := by
  cases h : N.find? (fun q => pidOf q = e.1) with
  | none => rw [overlayEntry_of_none N e h]
  | some q => rw [overlayEntry_of_some N e q h]

theorem pid_overlayEntry (N : List Obj) (e : String × Obj)
    (hwf : pidOf e.2 = e.1)
    (hNpid : ∀ q ∈ N, pidOf q ≠ "")
    (hNfld : ∀ q ∈ N, (q.map Prod.fst).Nodup) :
    pidOf (overlayEntry N e).2 = e.1 := by
  cases h : N.find? (fun q => pidOf q = e.1) with
  | none =>
    rw [overlayEntry_of_none N e h]
    exact hwf
  | some q =>
    have hq := List.mem_of_find?_eq_some h
    have hpq : pidOf q = e.1 := by simpa using List.find?_some h
    rw [overlayEntry_of_some N e q h]
    show pidOf (dupdate e.2 q) = e.1
    rw [pidOf_dupdate e.2 q (hNfld q hq) (hNpid q hq)]
    exact hpq

theorem mergedPubs_eq_zones (P0 N : List Obj)
    (hNpid : ∀ q ∈ N, pidOf q ≠ "") (hNnd : (N.map pidOf).Nodup) :
    mergedPubs P0 N
      = (buildPubMap P0).map (fun e => (overlayEntry N e).2)
        ++ N.filter (fun q =>
            ! (buildPubMap P0).any (fun e => e.1 = pidOf q)) := by
  unfold mergedPubs
  rw [foldl_mergePubInto_zones N (buildPubMap P0) (buildPubMap_keys P0).1
    hNpid hNnd]
  rw [List.map_append, List.map_map, List.map_map]
  have h2 : ∀ l : List Obj,
      l.map ((fun (x : String × Obj) => x.2) ∘ fun q => (pidOf q, q)) = l := by
    intro l
    induction l with
    | nil => rfl
    | cons q rest ih =>
      rw [List.map_cons, ih]
      rfl
  rw [h2]
  rfl

theorem mergedPubs_facts (P0 N : List Obj)
    (hNpid : ∀ q ∈ N, pidOf q ≠ "") (hNnd : (N.map pidOf).Nodup)
    (hNfld : ∀ q ∈ N, (q.map Prod.fst).Nodup) :
    (∀ p ∈ mergedPubs P0 N, pidOf p ≠ "")
    ∧ ((mergedPubs P0 N).map pidOf).Nodup
    ∧ (∀ q ∈ N, ∀ m ∈ mergedPubs P0 N, pidOf m = pidOf q → Absorbs m q)
    ∧ (∀ q ∈ N, ∃ m ∈ mergedPubs P0 N, pidOf m = pidOf q) := by
  have hwf := PubMapWF_buildPubMap P0
  have hMeq := mergedPubs_eq_zones P0 N hNpid hNnd
  refine ⟨?_, ?_, ?_, ?_⟩
  · intro p hp
    rw [hMeq] at hp
    rcases List.mem_append.1 hp with hp | hp
    · rcases List.mem_map.1 hp with ⟨e, he, rfl⟩
      rw [pid_overlayEntry N e (hwf e he) hNpid hNfld]
      exact (buildPubMap_keys P0).2 e.1 (List.mem_map_of_mem Prod.fst he)
    · exact hNpid p (List.mem_of_mem_filter hp)
  · have hpidmap : (mergedPubs P0 N).map pidOf
        = (buildPubMap P0).map Prod.fst
          ++ (N.filter (fun q =>
              ! (buildPubMap P0).any (fun e => e.1 = pidOf q))).map pidOf := by
      rw [hMeq, List.map_append, List.map_map]
      congr 1
      exact List.map_congr_left
        (fun e he => pid_overlayEntry N e (hwf e he) hNpid hNfld)
    rw [hpidmap, List.nodup_append]
    refine ⟨(buildPubMap_keys P0).1,
      ((List.filter_sublist N).map pidOf).nodup hNnd, ?_⟩
    intro k hk1 hk2
    rcases List.mem_map.1 hk2 with ⟨q, hqf, hkq⟩
    have hqpred := (List.mem_filter.1 hqf).2
    have hany : (buildPubMap P0).any (fun e => e.1 = pidOf q) = false := by
      cases hb : (buildPubMap P0).any (fun e => e.1 = pidOf q) with
      | false => rfl
      | true =>
        exfalso
        have : (! (buildPubMap P0).any (fun e => e.1 = pidOf q)) = true :=
          hqpred
        rw [hb] at this
        exact Bool.noConfusion this
    have hnotmem : pidOf q ∉ (buildPubMap P0).map Prod.fst := by
      intro hmem
      rw [(any_key_iff_mem_keys (buildPubMap P0) (pidOf q)).2 hmem] at hany
      exact Bool.noConfusion hany
    rw [← hkq] at hk1
    exact hnotmem hk1
  · intro q hq m hm hpm
    rw [hMeq] at hm
    rcases List.mem_append.1 hm with hm | hm
    · rcases List.mem_map.1 hm with ⟨e, he, rfl⟩
      have hpe := pid_overlayEntry N e (hwf e he) hNpid hNfld
      have he1 : e.1 = pidOf q := by rw [← hpe, hpm]
      have hfind : N.find? (fun q2 => pidOf q2 = e.1) = some q := by
        rw [he1]
        exact find?_pid_self N q hq hNnd
      rw [overlayEntry_of_some N e q hfind]
      exact absorbs_dupdate e.2 q (hNfld q hq)
    · have hqm := List.mem_of_mem_filter hm
      have hmq : m = q := eq_of_pid_eq N hNnd q m hq hqm hpm
      rw [hmq]
      exact absorbs_self q (hNfld q hq)
  · intro q hq
    rw [hMeq]
    by_cases hz2 : (buildPubMap P0).any (fun e => e.1 = pidOf q) = true
    · have hkm := (any_key_iff_mem_keys _ _).1 hz2
      rcases List.mem_map.1 hkm with ⟨e, he, hke⟩
      refine ⟨(overlayEntry N e).2,
        List.mem_append_left _
          (List.mem_map_of_mem (fun e => (overlayEntry N e).2) he), ?_⟩
      rw [pid_overlayEntry N e (hwf e he) hNpid hNfld]
      exact hke
    · refine ⟨q, List.mem_append_right _ ?_, rfl⟩
      rw [List.mem_filter]
      refine ⟨hq, ?_⟩
      show (! (buildPubMap P0).any (fun e => e.1 = pidOf q)) = true
      rw [bool_eq_false hz2]
      rfl

theorem filterMap_objOf_map_obj (ps : List Obj) :
    (ps.map JVal.obj).filterMap objOf = ps := by
  induction ps with
  | nil => rfl
  | cons p rest ih =>
    rw [List.map_cons, List.filterMap_cons]
    show p :: (rest.map JVal.obj).filterMap objOf = p :: rest
    rw [ih]

/-! ## Further pipeline invariants -/

theorem sidOf_aset_publications (v : Obj) (x : JVal) :
    sidOf (aset v "publications" x) = sidOf v := by
  unfold sidOf getStr
  rw [aget_aset_ne v "publications" "scholar_id" x (by decide)]

theorem getPubs_setPubs (a : Obj) (ps : List Obj) :
    getPubs (setPubs a ps) = ps := by
  rw [setPubs_eq_aset]
  exact getPubs_aset_arr a ps

theorem SidInv_dedupeAuthors (am : List (String × Obj)) :
    ∀ seen : List String, SidInv am → SidInv (dedupeAuthors seen am) := by
  induction am with
  | nil =>
    intro seen _ e he
    exact absurd he (List.not_mem_nil e)
  | cons e0 rest ih =>
    intro seen hinv e he
    obtain ⟨k, v⟩ := e0
    rw [dedupeAuthors_cons] at he
    rcases List.mem_cons.1 he with rfl | he
    · obtain ⟨hk, hkne⟩ := hinv (k, v) (List.mem_cons_self _ _)
      refine ⟨?_, hkne⟩
      show sidOf (aset v "publications" _) = k
      rw [sidOf_aset_publications]
      exact hk
    · exact ih _ (fun e2 he2 => hinv e2 (List.mem_cons_of_mem _ he2)) e he

theorem SidInv_map_stampAuthor (now : String) (am : List (String × Obj))
    (h : SidInv am) :
    SidInv (am.map (fun e => (e.1, stampAuthor now e.2))) := by
  intro e he
  rcases List.mem_map.1 he with ⟨e0, he0, rfl⟩
  obtain ⟨hk, hkne⟩ := h e0 he0
  refine ⟨?_, hkne⟩
  show sidOf (stampAuthor now e0.2) = e0.1
  rw [sidOf_stampAuthor]
  exact hk

theorem mergedPubs_nil_left (N : List Obj)
    (hNpid : ∀ q ∈ N, pidOf q ≠ "") (hNnd : (N.map pidOf).Nodup) :
    mergedPubs [] N = N := by
  rw [mergedPubs_eq_zones [] N hNpid hNnd]
  show ([] : List (String × Obj)).map _ ++ N.filter _ = N
  rw [List.map_nil, List.nil_append]
  have h : ∀ q ∈ N,
      (! (buildPubMap []).any (fun e => e.1 = pidOf q)) = true :=
    fun q _ => rfl
  rw [List.filter_eq_self.2 h]

/-- Re-stamping a second merge whose prior side is already stamped and
absorbed returns the prior list followed by the stamped unmatched
newcomers. -/
theorem mergedPubs_restamp (now : String) (N P1 : List Obj)
    (hNpid : ∀ q ∈ N, pidOf q ≠ "") (hNnd : (N.map pidOf).Nodup)
    (h1 : ∀ p ∈ P1, pidOf p ≠ "") (h2 : (P1.map pidOf).Nodup)
    (h3 : ∀ p ∈ P1, ∀ q ∈ N, pidOf q = pidOf p →
      stampPub now (dupdate p q) = p)
    (h4 : ∀ p ∈ P1, stampPub now p = p) :
    (mergedPubs P1 N).map (stampPub now)
      = P1 ++ (N.filter (fun q =>
          ! (buildPubMap P1).any (fun e => e.1 = pidOf q))).map
            (stampPub now) := by
  rw [mergedPubs_eq_zones P1 N hNpid hNnd, List.map_append]
  have hfirst : ((buildPubMap P1).map
      (fun e => (overlayEntry N e).2)).map (stampPub now) = P1 := by
    rw [buildPubMap_of_pids P1 h1 h2, List.map_map, List.map_map]
    have hpt : ∀ p ∈ P1,
        ((stampPub now ∘ fun e => (overlayEntry N e).2)
          ∘ fun p => (pidOf p, p)) p = p := by
      intro p hp
      show stampPub now (overlayEntry N (pidOf p, p)).2 = p
      cases hf : N.find? (fun q2 => pidOf q2 = (pidOf p, p).1) with
      | some q =>
        rw [overlayEntry_of_some N (pidOf p, p) q hf]
        have hq := List.mem_of_find?_eq_some hf
        have hpq : pidOf q = pidOf p := by simpa using List.find?_some hf
        exact h3 p hp q hq hpq
      | none =>
        rw [overlayEntry_of_none N (pidOf p, p) hf]
        exact h4 p hp
    rw [List.map_congr_left hpt]
    simp
  rw [hfirst]

/-- Core replay step for claim C9: running the whole pipeline on a dataset
of the decomposed, already-stamped and already-deduped shape returns that
dataset unchanged. -/
theorem pipeline_core (a : Obj) (now : String)
    (Dpre Dsuf : List (String × Obj)) (sA sB : List String) (P1 : List Obj)
    (h_ne : a.isEmpty = false) (h_sid : sidOf a ≠ "")
    (hNpid : ∀ q ∈ getPubs a, pidOf q ≠ "")
    (hNnd : ((getPubs a).map pidOf).Nodup)
    (hP1pid : ∀ p ∈ P1, pidOf p ≠ "") (hP1nd : (P1.map pidOf).Nodup)
    (h3 : ∀ p ∈ P1, ∀ q ∈ getPubs a, pidOf q = pidOf p →
      stampPub now (dupdate p q) = p)
    (h4 : ∀ p ∈ P1, stampPub now p = p)
    (hSkeys : ∀ q ∈ getPubs a, dedupeKey (stampPub now q) ∈ sB)
    (hDpre_stamp : Dpre.map (fun e => (e.1, stampAuthor now e.2)) = Dpre)
    (hDsuf_stamp : Dsuf.map (fun e => (e.1, stampAuthor now e.2)) = Dsuf)
    (hDpre_replay : dedupeAuthors [] Dpre = Dpre)
    (hDpre_seen : dedupeAuthorsSeen [] Dpre = sA)
    (hDsuf_replay : dedupeAuthors sB Dsuf = Dsuf)
    (hfresh : dedupePubsAux sA (P1.map JVal.obj) = (P1, sB))
    (hpreK : sidOf a ∉ Dpre.map Prod.fst)
    (hsufK : sidOf a ∉ Dsuf.map Prod.fst)
    (hkeys : ((Dpre ++ (sidOf a, setPubs a P1) :: Dsuf).map Prod.fst).Nodup)
    (hinv : SidInv (Dpre ++ (sidOf a, setPubs a P1) :: Dsuf)) :
    merge_and_save_results [a]
        ((Dpre ++ (sidOf a, setPubs a P1) :: Dsuf).map Prod.snd) now
      = (Dpre ++ (sidOf a, setPubs a P1) :: Dsuf).map Prod.snd := by
  have hr2 : dedupePubsAux sA
      ((P1 ++ ((getPubs a).filter (fun q =>
        ! (buildPubMap P1).any (fun e => e.1 = pidOf q))).map
          (stampPub now)).map JVal.obj)
      = (P1, sB) := by
    rw [List.map_append, dedupePubsAux_append, hfresh]
    show (P1 ++ (dedupePubsAux sB ((((getPubs a).filter (fun q =>
        ! (buildPubMap P1).any (fun e => e.1 = pidOf q))).map
          (stampPub now)).map JVal.obj)).1,
      (dedupePubsAux sB ((((getPubs a).filter (fun q =>
        ! (buildPubMap P1).any (fun e => e.1 = pidOf q))).map
          (stampPub now)).map JVal.obj)).2) = (P1, sB)
    have hall : ∀ s ∈ ((getPubs a).filter (fun q =>
        ! (buildPubMap P1).any (fun e => e.1 = pidOf q))).map
          (stampPub now), dedupeKey s ∈ sB := by
      intro s hs
      rcases List.mem_map.1 hs with ⟨q, hqf, rfl⟩
      exact hSkeys q (List.mem_of_mem_filter hqf)
    rw [dedupe_all_seen _ sB hall]
    simp
  have hr2a : (dedupePubsAux sA
      ((P1 ++ ((getPubs a).filter (fun q =>
        ! (buildPubMap P1).any (fun e => e.1 = pidOf q))).map
          (stampPub now)).map JVal.obj)).1 = P1 := congrArg Prod.fst hr2
  have hr2b : (dedupePubsAux sA
      ((P1 ++ ((getPubs a).filter (fun q =>
        ! (buildPubMap P1).any (fun e => e.1 = pidOf q))).map
          (stampPub now)).map JVal.obj)).2 = sB := congrArg Prod.snd hr2
  show (dedupeAuthors []
      (([a].foldl mergeAuthorsStep (buildAuthorMap
        ((Dpre ++ (sidOf a, setPubs a P1) :: Dsuf).map Prod.snd))).map
        (fun e => (e.1, stampAuthor now e.2)))).map Prod.snd
    = (Dpre ++ (sidOf a, setPubs a P1) :: Dsuf).map Prod.snd
  rw [buildAuthorMap_rebuild (Dpre ++ (sidOf a, setPubs a P1) :: Dsuf)
    hinv hkeys]
  rw [List.foldl_cons, List.foldl_nil]
  have hfound : aget (Dpre ++ (sidOf a, setPubs a P1) :: Dsuf) (sidOf a)
      = some (setPubs a P1) :=
    aget_append_middle Dpre Dsuf (sidOf a) (setPubs a P1) hpreK
  rw [mergeAuthorsStep_of_found _ a _ h_ne h_sid hfound, getPubs_setPubs]
  rw [aset_append_middle Dpre Dsuf (sidOf a) _ _ hpreK hsufK]
  simp only [List.map_append, List.map_cons]
  rw [hDpre_stamp, hDsuf_stamp, stampAuthor_setPubs]
  rw [mergedPubs_restamp now (getPubs a) P1 hNpid hNnd hP1pid hP1nd h3 h4]
  rw [dedupeAuthors_append, hDpre_replay, hDpre_seen]
  rw [dedupeAuthors_cons]
  rw [pubsArr_setPubs]
  rw [hr2a, hr2b]
  rw [← setPubs_eq_aset, setPubs_setPubs]
  rw [hDsuf_replay]
  rw [List.map_append, List.map_cons]

set_option maxHeartbeats 1600000 in
/-- Replay of the merge-stamp-dedupe pipeline over the output of one run,
for one incoming author whose merge step landed at a decomposed position
of the author map. -/
theorem pipeline_replay (a : Obj) (now : String)
    (pre0 suf0 : List (String × Obj)) (P0 : List Obj)
    (h_ne : a.isEmpty = false) (h_sid : sidOf a ≠ "") (hnow : now ≠ "")
    (hpubs : ∀ q ∈ getPubs a, pidOf q ≠ "" ∧ (q.map Prod.fst).Nodup
      ∧ ∃ t, aget q "title" = some (JVal.str t) ∧ t ≠ ""
          ∧ normalize_title_for_dedupe t ≠ "")
    (hnd : ((getPubs a).map pidOf).Nodup)
    (hpre : sidOf a ∉ pre0.map Prod.fst)
    (hsuf : sidOf a ∉ suf0.map Prod.fst)
    (hkeys1 : ((pre0 ++ (sidOf a,
        setPubs a (mergedPubs P0 (getPubs a))) :: suf0).map Prod.fst).Nodup)
    (hinv1 : SidInv (pre0 ++ (sidOf a,
        setPubs a (mergedPubs P0 (getPubs a))) :: suf0)) :
    merge_and_save_results [a]
        ((dedupeAuthors [] ((pre0 ++ (sidOf a,
            setPubs a (mergedPubs P0 (getPubs a))) :: suf0).map
            (fun e => (e.1, stampAuthor now e.2)))).map Prod.snd) now
      = (dedupeAuthors [] ((pre0 ++ (sidOf a,
            setPubs a (mergedPubs P0 (getPubs a))) :: suf0).map
            (fun e => (e.1, stampAuthor now e.2)))).map Prod.snd := by
  have hNpid : ∀ q ∈ getPubs a, pidOf q ≠ "" := fun q hq => (hpubs q hq).1
  have hNfld : ∀ q ∈ getPubs a, (q.map Prod.fst).Nodup :=
    fun q hq => (hpubs q hq).2.1
  obtain ⟨F1, F2, F3, F4⟩ :=
    mergedPubs_facts P0 (getPubs a) hNpid hnd hNfld
  -- the map after the first stamping pass, decomposed
  have ham2 : (pre0 ++ (sidOf a,
        setPubs a (mergedPubs P0 (getPubs a))) :: suf0).map
        (fun e => (e.1, stampAuthor now e.2))
      = pre0.map (fun e => (e.1, stampAuthor now e.2))
        ++ (sidOf a, setPubs a
            ((mergedPubs P0 (getPubs a)).map (stampPub now)))
          :: suf0.map (fun e => (e.1, stampAuthor now e.2)) := by
    simp only [List.map_append, List.map_cons]
    rw [stampAuthor_setPubs]
  -- the first run's output map, decomposed
  have hM1 : dedupeAuthors [] ((pre0 ++ (sidOf a,
        setPubs a (mergedPubs P0 (getPubs a))) :: suf0).map
        (fun e => (e.1, stampAuthor now e.2)))
      = dedupeAuthors [] (pre0.map (fun e => (e.1, stampAuthor now e.2)))
        ++ (sidOf a, setPubs a
            (dedupePubsAux
              (dedupeAuthorsSeen []
                (pre0.map (fun e => (e.1, stampAuthor now e.2))))
              (((mergedPubs P0 (getPubs a)).map (stampPub now)).map
                JVal.obj)).1)
          :: dedupeAuthors
              (dedupePubsAux
                (dedupeAuthorsSeen []
                  (pre0.map (fun e => (e.1, stampAuthor now e.2))))
                (((mergedPubs P0 (getPubs a)).map (stampPub now)).map
                  JVal.obj)).2
              (suf0.map (fun e => (e.1, stampAuthor now e.2))) := by
    rw [ham2, dedupeAuthors_append, dedupeAuthors_cons, pubsArr_setPubs]
    rw [← setPubs_eq_aset, setPubs_setPubs]
  -- facts about the surviving first-run publications
  have hsubP1 : (dedupePubsAux
      (dedupeAuthorsSeen []
        (pre0.map (fun e => (e.1, stampAuthor now e.2))))
      (((mergedPubs P0 (getPubs a)).map (stampPub now)).map
        JVal.obj)).1.Sublist
      ((mergedPubs P0 (getPubs a)).map (stampPub now)) := by
    have h := dedupePubsAux_sublist
      (((mergedPubs P0 (getPubs a)).map (stampPub now)).map JVal.obj)
      (dedupeAuthorsSeen []
        (pre0.map (fun e => (e.1, stampAuthor now e.2))))
    rw [filterMap_objOf_map_obj] at h
    exact h
  have hmemP1 : ∀ p ∈ (dedupePubsAux
      (dedupeAuthorsSeen []
        (pre0.map (fun e => (e.1, stampAuthor now e.2))))
      (((mergedPubs P0 (getPubs a)).map (stampPub now)).map
        JVal.obj)).1,
      ∃ m ∈ mergedPubs P0 (getPubs a), p = stampPub now m := by
    intro p hp
    rcases List.mem_map.1 (hsubP1.subset hp) with ⟨m, hm, hpm⟩
    exact ⟨m, hm, hpm.symm⟩
  have hP1pid : ∀ p ∈ (dedupePubsAux
      (dedupeAuthorsSeen []
        (pre0.map (fun e => (e.1, stampAuthor now e.2))))
      (((mergedPubs P0 (getPubs a)).map (stampPub now)).map
        JVal.obj)).1, pidOf p ≠ "" := by
    intro p hp
    rcases hmemP1 p hp with ⟨m, hm, rfl⟩
    rw [pidOf_stampPub]
    exact F1 m hm
  have hM'pid : ((mergedPubs P0 (getPubs a)).map (stampPub now)).map pidOf
      = (mergedPubs P0 (getPubs a)).map pidOf := by
    rw [List.map_map]
    exact List.map_congr_left (fun m _ => pidOf_stampPub now m)
  have hP1nd : ((dedupePubsAux
      (dedupeAuthorsSeen []
        (pre0.map (fun e => (e.1, stampAuthor now e.2))))
      (((mergedPubs P0 (getPubs a)).map (stampPub now)).map
        JVal.obj)).1.map pidOf).Nodup := by
    have h := hsubP1.map pidOf
    rw [hM'pid] at h
    exact h.nodup F2
  have h3 : ∀ p ∈ (dedupePubsAux
      (dedupeAuthorsSeen []
        (pre0.map (fun e => (e.1, stampAuthor now e.2))))
      (((mergedPubs P0 (getPubs a)).map (stampPub now)).map
        JVal.obj)).1, ∀ q ∈ getPubs a, pidOf q = pidOf p →
      stampPub now (dupdate p q) = p := by
    intro p hp q hq hpq
    rcases hmemP1 p hp with ⟨m, hm, rfl⟩
    rw [pidOf_stampPub] at hpq
    have hab := F3 q hq m hm hpq.symm
    exact stamp_dupdate_absorbed m q now hnow (hNfld q hq) hab
  have h4 : ∀ p ∈ (dedupePubsAux
      (dedupeAuthorsSeen []
        (pre0.map (fun e => (e.1, stampAuthor now e.2))))
      (((mergedPubs P0 (getPubs a)).map (stampPub now)).map
        JVal.obj)).1, stampPub now p = p := by
    intro p hp
    rcases hmemP1 p hp with ⟨m, _, rfl⟩
    exact stampPub_idem now m hnow
  have hSkeys : ∀ q ∈ getPubs a, dedupeKey (stampPub now q)
      ∈ (dedupePubsAux
          (dedupeAuthorsSeen []
            (pre0.map (fun e => (e.1, stampAuthor now e.2))))
          (((mergedPubs P0 (getPubs a)).map (stampPub now)).map
            JVal.obj)).2 := by
    intro q hq
    rcases (hpubs q hq).2.2 with ⟨t, ht, htne, hn⟩
    rcases F4 q hq with ⟨m, hm, hpmq⟩
    have hab := F3 q hq m hm hpmq
    have hkm := dedupeKey_stamp_of_absorbs m q t now hab ht htne hn
    have hkq := dedupeKey_stamp_of_absorbs q q t now
      (absorbs_self q (hNfld q hq)) ht htne hn
    rw [hkq, ← hkm]
    exact dedupePubsAux_covers _ _ (stampPub now m)
      (List.mem_map_of_mem JVal.obj
        (List.mem_map_of_mem (stampPub now) hm))
  have hfresh : dedupePubsAux
      (dedupeAuthorsSeen []
        (pre0.map (fun e => (e.1, stampAuthor now e.2))))
      ((dedupePubsAux
        (dedupeAuthorsSeen []
          (pre0.map (fun e => (e.1, stampAuthor now e.2))))
        (((mergedPubs P0 (getPubs a)).map (stampPub now)).map
          JVal.obj)).1.map JVal.obj)
      = ((dedupePubsAux
          (dedupeAuthorsSeen []
            (pre0.map (fun e => (e.1, stampAuthor now e.2))))
          (((mergedPubs P0 (getPubs a)).map (stampPub now)).map
            JVal.obj)).1,
         (dedupePubsAux
          (dedupeAuthorsSeen []
            (pre0.map (fun e => (e.1, stampAuthor now e.2))))
          (((mergedPubs P0 (getPubs a)).map (stampPub now)).map
            JVal.obj)).2) := by
    have h5 := dedupePubsAux_keys_nodup
      (((mergedPubs P0 (getPubs a)).map (stampPub now)).map JVal.obj)
      (dedupeAuthorsSeen []
        (pre0.map (fun e => (e.1, stampAuthor now e.2))))
    rw [dedupe_all_fresh _ _ h5.1
      (fun p hp => h5.2 _ (List.mem_map_of_mem dedupeKey hp))]
    rw [← dedupePubsAux_seen_eq]
  have hinvpre : SidInv pre0 :=
    fun e he => hinv1 e (List.mem_append_left _ he)
  have hinvsuf : SidInv suf0 :=
    fun e he => hinv1 e
      (List.mem_append_right _ (List.mem_cons_of_mem _ he))
  have hpreK : sidOf a ∉ (dedupeAuthors []
      (pre0.map (fun e => (e.1, stampAuthor now e.2)))).map Prod.fst := by
    rw [keys_dedupeAuthors, keys_map_stampE]
    exact hpre
  have hsufK : sidOf a ∉ (dedupeAuthors
      (dedupePubsAux
        (dedupeAuthorsSeen []
          (pre0.map (fun e => (e.1, stampAuthor now e.2))))
        (((mergedPubs P0 (getPubs a)).map (stampPub now)).map
          JVal.obj)).2
      (suf0.map (fun e => (e.1, stampAuthor now e.2)))).map Prod.fst := by
    rw [keys_dedupeAuthors, keys_map_stampE]
    exact hsuf
  have hkeysM1 : ((dedupeAuthors []
        (pre0.map (fun e => (e.1, stampAuthor now e.2)))
      ++ (sidOf a, setPubs a
          (dedupePubsAux
            (dedupeAuthorsSeen []
              (pre0.map (fun e => (e.1, stampAuthor now e.2))))
            (((mergedPubs P0 (getPubs a)).map (stampPub now)).map
              JVal.obj)).1)
        :: dedupeAuthors
            (dedupePubsAux
              (dedupeAuthorsSeen []
                (pre0.map (fun e => (e.1, stampAuthor now e.2))))
              (((mergedPubs P0 (getPubs a)).map (stampPub now)).map
                JVal.obj)).2
            (suf0.map (fun e => (e.1, stampAuthor now e.2)))).map
          Prod.fst).Nodup := by
    have heq : (dedupeAuthors []
          (pre0.map (fun e => (e.1, stampAuthor now e.2)))
        ++ (sidOf a, setPubs a
            (dedupePubsAux
              (dedupeAuthorsSeen []
                (pre0.map (fun e => (e.1, stampAuthor now e.2))))
              (((mergedPubs P0 (getPubs a)).map (stampPub now)).map
                JVal.obj)).1)
          :: dedupeAuthors
              (dedupePubsAux
                (dedupeAuthorsSeen []
                  (pre0.map (fun e => (e.1, stampAuthor now e.2))))
                (((mergedPubs P0 (getPubs a)).map (stampPub now)).map
                  JVal.obj)).2
              (suf0.map (fun e => (e.1, stampAuthor now e.2)))).map
            Prod.fst
        = (pre0 ++ (sidOf a,
            setPubs a (mergedPubs P0 (getPubs a))) :: suf0).map
            Prod.fst := by
      rw [List.map_append, List.map_cons, List.map_append, List.map_cons]
      rw [keys_dedupeAuthors, keys_map_stampE,
        keys_dedupeAuthors, keys_map_stampE]
    rw [heq]
    exact hkeys1
  have hinvCore : SidInv (dedupeAuthors []
        (pre0.map (fun e => (e.1, stampAuthor now e.2)))
      ++ (sidOf a, setPubs a
          (dedupePubsAux
            (dedupeAuthorsSeen []
              (pre0.map (fun e => (e.1, stampAuthor now e.2))))
            (((mergedPubs P0 (getPubs a)).map (stampPub now)).map
              JVal.obj)).1)
        :: dedupeAuthors
            (dedupePubsAux
              (dedupeAuthorsSeen []
                (pre0.map (fun e => (e.1, stampAuthor now e.2))))
              (((mergedPubs P0 (getPubs a)).map (stampPub now)).map
                JVal.obj)).2
            (suf0.map (fun e => (e.1, stampAuthor now e.2)))) := by
    intro e he
    rcases List.mem_append.1 he with he | he
    · exact SidInv_dedupeAuthors
        (pre0.map (fun e => (e.1, stampAuthor now e.2))) []
        (SidInv_map_stampAuthor now pre0 hinvpre) e he
    · rcases List.mem_cons.1 he with rfl | he
      · exact ⟨sidOf_setPubs a _, h_sid⟩
      · exact SidInv_dedupeAuthors
          (suf0.map (fun e => (e.1, stampAuthor now e.2))) _
          (SidInv_map_stampAuthor now suf0 hinvsuf) e he
  rw [hM1]
  exact pipeline_core a now
    (dedupeAuthors [] (pre0.map (fun e => (e.1, stampAuthor now e.2))))
    (dedupeAuthors
      (dedupePubsAux
        (dedupeAuthorsSeen []
          (pre0.map (fun e => (e.1, stampAuthor now e.2))))
        (((mergedPubs P0 (getPubs a)).map (stampPub now)).map JVal.obj)).2
      (suf0.map (fun e => (e.1, stampAuthor now e.2))))
    (dedupeAuthorsSeen [] (pre0.map (fun e => (e.1, stampAuthor now e.2))))
    (dedupePubsAux
      (dedupeAuthorsSeen []
        (pre0.map (fun e => (e.1, stampAuthor now e.2))))
      (((mergedPubs P0 (getPubs a)).map (stampPub now)).map JVal.obj)).2
    (dedupePubsAux
      (dedupeAuthorsSeen []
        (pre0.map (fun e => (e.1, stampAuthor now e.2))))
      (((mergedPubs P0 (getPubs a)).map (stampPub now)).map JVal.obj)).1
    h_ne h_sid hNpid hnd hP1pid hP1nd h3 h4 hSkeys
    (stampAuthor_noop_after_dedupe now hnow pre0 [])
    (stampAuthor_noop_after_dedupe now hnow suf0 _)
    (dedupeAuthors_replay
      (pre0.map (fun e => (e.1, stampAuthor now e.2))) []).1
    (dedupeAuthors_replay
      (pre0.map (fun e => (e.1, stampAuthor now e.2))) []).2
    (dedupeAuthors_replay
      (suf0.map (fun e => (e.1, stampAuthor now e.2))) _).1
    hfresh hpreK hsufK hkeysM1 hinvCore

/-- Claim C9 (counterexample).  One author with one publication that has a
title but no `author_pub_id`: the first merge into an empty dataset keeps
and stamps the publication, the second merge of the identical record drops
it (the merge loop skips id-less incoming publications), so the dataset
drifts. -/
theorem claim_C9_counterexample :
    merge_and_save_results
        [[("scholar_id", JVal.str "s"),
          ("publications", JVal.arr [JVal.obj [("title", JVal.str "T")]])]]
        [] "N"
      = [[("scholar_id", JVal.str "s"),
          ("publications", JVal.arr [JVal.obj
            [("title", JVal.str "T"), ("last_scraped", JVal.str "N")]])]]
    ∧ merge_and_save_results
        [[("scholar_id", JVal.str "s"),
          ("publications", JVal.arr [JVal.obj [("title", JVal.str "T")]])]]
        (merge_and_save_results
          [[("scholar_id", JVal.str "s"),
            ("publications", JVal.arr [JVal.obj [("title", JVal.str "T")]])]]
          [] "N") "N"
      = [[("scholar_id", JVal.str "s"), ("publications", JVal.arr [])]]
    ∧ ([JVal.obj [("title", JVal.str "T"), ("last_scraped", JVal.str "N")]]
          : List JVal).length
        ≠ ([] : List JVal).length :=
  ⟨rfl, rfl, by decide⟩

set_option maxHeartbeats 1600000 in
/-- Claim C9 (amended): merging the same author record twice is idempotent
provided the record has a non-empty `scholar_id`, the timestamp is
non-empty, and every publication of the record carries a non-empty
`author_pub_id` (pairwise distinct across the record), duplicate-free
field keys, and a non-empty title whose normalization is non-empty.  Under
these conditions the dataset after the second merge equals the dataset
after the first. -/
theorem merge_and_save_results_idem (a : Obj) (existing : List Obj)
    (now : String) (hsid : sidOf a ≠ "") (hnow : now ≠ "")
    (hpubs : ∀ q ∈ getPubs a, pidOf q ≠ "" ∧ (q.map Prod.fst).Nodup
      ∧ ∃ t, aget q "title" = some (JVal.str t) ∧ t ≠ ""
          ∧ normalize_title_for_dedupe t ≠ "")
    (hnd : ((getPubs a).map pidOf).Nodup) :
    merge_and_save_results [a] (merge_and_save_results [a] existing now) now
      = merge_and_save_results [a] existing now := by
  have h_ne := isEmpty_false_of_sid a hsid
  have hNpid : ∀ q ∈ getPubs a, pidOf q ≠ "" := fun q hq => (hpubs q hq).1
  obtain ⟨hk0, hinv0⟩ := buildAuthorMap_facts existing
  obtain ⟨pre0, suf0, P0, ham1, hpre, hsuf, hkeys1, hinv1⟩ :
      ∃ (pre0 suf0 : List (String × Obj)) (P0 : List Obj),
        mergeAuthorsStep (buildAuthorMap existing) a
          = pre0 ++ (sidOf a,
              setPubs a (mergedPubs P0 (getPubs a))) :: suf0
        ∧ sidOf a ∉ pre0.map Prod.fst
        ∧ sidOf a ∉ suf0.map Prod.fst
        ∧ ((pre0 ++ (sidOf a,
            setPubs a (mergedPubs P0 (getPubs a))) :: suf0).map
              Prod.fst).Nodup
        ∧ SidInv (pre0 ++ (sidOf a,
            setPubs a (mergedPubs P0 (getPubs a))) :: suf0) := by
    cases hget : aget (buildAuthorMap existing) (sidOf a) with
    | some old =>
      have hmem := (any_key_iff_mem_keys _ _).1
        (any_key_of_aget_some _ _ _ hget)
      obtain ⟨pre, v, suf, hdec, hprekeys⟩ :=
        exists_first_decompose _ _ hmem
      have hk0d := hk0
      rw [hdec, List.map_append, List.map_cons] at hk0d
      have hsufkeys : sidOf a ∉ suf.map Prod.fst := by
        rcases List.nodup_append.1 hk0d with ⟨_, h2, _⟩
        exact (List.nodup_cons.1 h2).1
      refine ⟨pre, suf, getPubs old, ?_, hprekeys, hsufkeys, ?_, ?_⟩
      · rw [mergeAuthorsStep_of_found _ a old h_ne hsid hget, hdec]
        exact aset_append_middle pre suf (sidOf a) v _ hprekeys hsufkeys
      · rw [List.map_append, List.map_cons]
        exact hk0d
      · intro e he
        rcases List.mem_append.1 he with he | he
        · exact hinv0 e (by rw [hdec]; exact List.mem_append_left _ he)
        · rcases List.mem_cons.1 he with rfl | he
          · exact ⟨sidOf_setPubs a _, hsid⟩
          · exact hinv0 e (by
              rw [hdec]
              exact List.mem_append_right _ (List.mem_cons_of_mem _ he))
    | none =>
      have hnotmem : sidOf a ∉ (buildAuthorMap existing).map Prod.fst := by
        intro hmem
        rcases List.mem_map.1 hmem with ⟨e, he, hke⟩
        rw [aget_eq_none_iff] at hget
        exact hget e he hke
      refine ⟨buildAuthorMap existing, [], [], ?_, hnotmem, by simp,
        ?_, ?_⟩
      · rw [mergeAuthorsStep_of_new _ a h_ne hsid hget,
          mergedPubs_nil_left (getPubs a) hNpid hnd]
      · rw [List.map_append, List.map_cons, List.nodup_append]
        refine ⟨hk0, ?_, ?_⟩
        · rw [List.map_nil]
          exact List.nodup_cons.2 ⟨List.not_mem_nil _, List.nodup_nil⟩
        · intro k hk1 hk2
          rw [List.map_nil] at hk2
          rcases List.mem_cons.1 hk2 with rfl | hk2
          · exact hnotmem hk1
          · exact absurd hk2 (List.not_mem_nil _)
      · intro e he
        rcases List.mem_append.1 he with he | he
        · exact hinv0 e he
        · rcases List.mem_cons.1 he with rfl | he
          · exact ⟨sidOf_setPubs a _, hsid⟩
          · exact absurd he (List.not_mem_nil e)
  have hrun1 : merge_and_save_results [a] existing now
      = (dedupeAuthors [] ((pre0 ++ (sidOf a,
          setPubs a (mergedPubs P0 (getPubs a))) :: suf0).map
          (fun e => (e.1, stampAuthor now e.2)))).map Prod.snd := by
    show (dedupeAuthors []
        (([a].foldl mergeAuthorsStep (buildAuthorMap existing)).map
          (fun e => (e.1, stampAuthor now e.2)))).map Prod.snd = _
    rw [List.foldl_cons, List.foldl_nil, ham1]
  rw [hrun1]
  exact pipeline_replay a now pre0 suf0 P0 h_ne hsid hnow hpubs hnd
    hpre hsuf hkeys1 hinv1

/-- Witness for the amended claim C9: a concrete author with one titled,
identified publication round-trips unchanged through the second merge. -/
theorem merge_and_save_results_idem_witness :
    sidOf [("scholar_id", JVal.str "s"),
        ("publications", JVal.arr [JVal.obj
          [("author_pub_id", JVal.str "p1"),
           ("title", JVal.str "Deep Learning")]])] ≠ ""
    ∧ merge_and_save_results
        [[("scholar_id", JVal.str "s"),
          ("publications", JVal.arr [JVal.obj
            [("author_pub_id", JVal.str "p1"),
             ("title", JVal.str "Deep Learning")]])]]
        (merge_and_save_results
          [[("scholar_id", JVal.str "s"),
            ("publications", JVal.arr [JVal.obj
              [("author_pub_id", JVal.str "p1"),
               ("title", JVal.str "Deep Learning")]])]]
          [] "2024-01-01") "2024-01-01"
      = merge_and_save_results
          [[("scholar_id", JVal.str "s"),
            ("publications", JVal.arr [JVal.obj
              [("author_pub_id", JVal.str "p1"),
               ("title", JVal.str "Deep Learning")]])]]
          [] "2024-01-01" := by
  constructor
  · decide
  · refine merge_and_save_results_idem _ [] "2024-01-01" (by decide)
      (by decide) ?_ (by decide)
    intro q hq
    have hq2 : q ∈ [[("author_pub_id", JVal.str "p1"),
        ("title", JVal.str "Deep Learning")]] := hq
    rcases List.mem_singleton.1 hq2 with rfl
    exact ⟨by decide, by decide, "Deep Learning", rfl, by decide, by decide⟩

end ScholarScraper